import Mathlib

/-!
Verification of the Assignment & Scheduling Engine of the AQWSE repository.

This file is a shallow embedding of the engine's core, translated from
`src/optimizer.py` (dependency resolution, greedy assignment, risk
evaluation) and `src/quantum_optimizer.py` (the combinatorial/quantum
wrapper and its metric computation), together with theorems settling the
specification's claims about it.

Modelling conventions:
* Python floats are modelled as exact rationals (`ℚ`); `round(x, n)` is
  modelled by round-half-to-even on the exact rational value.
* Python dicts are modelled as insertion-ordered association lists with
  overwrite-on-reinsert semantics (`dinsert` / `dfind?`), matching the
  iteration order and update behaviour of CPython dicts.
* Python sets of strings are modelled as `Finset String` where only the
  cardinality matters, and as membership tests elsewhere.
* Optional dict fields (`priority`, `dependencies`, `required_skills`) are
  modelled as always-present record fields, so the `.get` defaults of the
  source never fire.
* The recursive depth-first traversal of `_resolve_dependencies` is
  modelled with explicit fuel; fuel exhaustion is proved unreachable for
  the fuel supplied by `_resolve_dependencies`.
* The "quantum amplitude" `1/(cost+1) * (skill/100) ** (priority/5)` is a
  real number; the solver only ever compares amplitudes of candidates for
  the same task (same exponent), and that comparison is decided exactly by
  comparing fifth powers: for nonnegative bases,
  `(sx/100)^(p/5)/(cx+1) ≥ (sy/100)^(p/5)/(cy+1)` iff
  `sx^p*(cy+1)^5 ≥ sy^p*(cx+1)^5`.
-/

namespace AQWSE

/-- Insertion-ordered dictionary insert: replace the value in place when the
key is present (CPython dicts keep the original position), append otherwise. -/
def dinsert {α : Type} (d : List (String × α)) (k : String) (v : α) : List (String × α) :=
  if d.any (fun kv => kv.1 == k) then
    d.map (fun kv => if kv.1 == k then (k, v) else kv)
  else d ++ [(k, v)]

/-- Dictionary lookup: the value of the first (unique) entry with the key. -/
def dfind? {α : Type} (d : List (String × α)) (k : String) : Option α :=
  match d.find? (fun kv => kv.1 == k) with
  | some kv => some kv.2
  | none => none

/-- Dictionary lookup with a default (`dict.get(k, default)`). -/
def dgetD {α : Type} (d : List (String × α)) (k : String) (v₀ : α) : α :=
  (dfind? d k).getD v₀

/-- A worker record (`developers` entries in `optimizer.py`). -/
structure Developer where
  name : String
  rate : ℚ
  hours_per_day : ℚ
  skills : List String
deriving DecidableEq, Repr

/-- A task record (`projects` entries in `optimizer.py`). -/
structure Project where
  name : String
  hours : ℚ
  priority : ℤ
  dependencies : List String
  required_skills : List String
deriving DecidableEq, Repr

/-- State of the depth-first traversal in `_resolve_dependencies`:
the `visited` set, the in-progress `temp` set (kept as the current DFS path,
most recent first), and the output list `ordered`. -/
structure DfsState where
  visited : List String
  temp : List String
  ordered : List String
deriving DecidableEq, Repr

/-- Errors that `_resolve_dependencies` can raise: the `ValueError` for a
circular dependency (carrying the task name in its message), the `KeyError`
from `project_map[name]` on a name that is not a task, and the unreachable
fuel marker of the embedding. -/
inductive ResolveError where
  | cycle (name : String)
  | keyError (name : String)
  | fuelExhausted
deriving DecidableEq, Repr

/-- The dependency list of a task name in the dependency graph
(`dependency_graph.get(project_name, [])`). -/
def depsOf (g : List (String × List String)) (n : String) : List String :=
  dgetD g n []

/-- The `for dep in dependency_graph.get(project_name, []): if dep: visit(dep)`
loop of `_resolve_dependencies.visit`, parameterized by the visiting function. -/
def visitDeps (vf : String → DfsState → Option (Except ResolveError DfsState)) :
    List String → DfsState → Option (Except ResolveError DfsState)
  | [], s => some (.ok s)
  | d :: ds, s =>
    if d = "" then visitDeps vf ds s
    else
      match vf d s with
      | none => none
      | some (.error e) => some (.error e)
      | some (.ok s') => visitDeps vf ds s'

/-- The recursive `visit` of `_resolve_dependencies`: raise on a name already
in progress, skip a visited name, otherwise mark in progress, visit all
dependencies, then move the name to `visited` and append it to `ordered`.
`none` is fuel exhaustion (proved unreachable for the supplied fuel). -/
def visit (g : List (String × List String)) :
    Nat → String → DfsState → Option (Except ResolveError DfsState)
  | 0, _, _ => none
  | fuel + 1, n, s =>
    if n ∈ s.temp then some (.error (.cycle n))
    else if n ∈ s.visited then some (.ok s)
    else
      match visitDeps (visit g fuel) (depsOf g n) { s with temp := n :: s.temp } with
      | none => none
      | some (.error e) => some (.error e)
      | some (.ok s') =>
        some (.ok { visited := n :: s'.visited,
                    temp := s'.temp.erase n,
                    ordered := s'.ordered ++ [n] })

/-- The `for project_name in dependency_graph: if project_name not in visited:
visit(project_name)` loop of `_resolve_dependencies`. -/
def visitAll (g : List (String × List String)) (fuel : Nat) :
    List String → DfsState → Option (Except ResolveError DfsState)
  | [], s => some (.ok s)
  | n :: ns, s =>
    if n ∈ s.visited then visitAll g fuel ns s
    else
      match visit g fuel n s with
      | none => none
      | some (.error e) => some (.error e)
      | some (.ok s') => visitAll g fuel ns s'

/-- The dependency graph of `_resolve_dependencies`: a dict from task name to
its dependency list, built in input order. -/
def buildGraph (ps : List Project) : List (String × List String) :=
  ps.foldl (fun g p => dinsert g p.name p.dependencies) []

/-- The `project_map` dict of `_resolve_dependencies`. -/
def projectMap (ps : List Project) : List (String × Project) :=
  ps.foldl (fun m p => dinsert m p.name p) []

/-- The `[project_map[name] for name in ordered]` comprehension; a name with
no task raises `KeyError`. -/
def lookupAllProjects (m : List (String × Project)) :
    List String → Except ResolveError (List Project)
  | [] => .ok []
  | n :: ns =>
    match dfind? m n with
    | none => .error (.keyError n)
    | some p => (lookupAllProjects m ns).map (fun l => p :: l)

/-- The sort key `-x.get('priority', 1)` of the final priority sort. -/
def priorityKey (p : Project) : ℤ := -p.priority

/-- Stable insertion of a task into a list sorted by ascending `priorityKey`;
on ties the inserted (originally earlier) task goes first, which together
with `sortPrio`'s right fold models Python's stable `list.sort`. -/
def insertPrio (x : Project) : List Project → List Project
  | [] => [x]
  | y :: ys => if priorityKey x ≤ priorityKey y then x :: y :: ys else y :: insertPrio x ys

/-- The final `ordered_projects.sort(key=lambda x: -x.get('priority', 1))`:
a stable sort by descending priority. -/
def sortPrio (l : List Project) : List Project := l.foldr insertPrio []

/-- All names the traversal can ever reach: the graph's keys and every name
occurring in a dependency list. Its length bounds the DFS depth. -/
def allNames (g : List (String × List String)) : List String :=
  g.map Prod.fst ++ g.foldr (fun kv acc => kv.2 ++ acc) []

/-- Shallow embedding of `_resolve_dependencies` (src/optimizer.py lines
86-134): build the dependency graph, topologically sort it by depth-first
traversal (cycles raise), map the ordered names back to tasks (a name that is
not a task raises `KeyError`), then sort the result by descending priority. -/
def _resolve_dependencies (ps : List Project) : Except ResolveError (List Project) :=
  let g := buildGraph ps
  match visitAll g ((allNames g).length + 1) (g.map Prod.fst) ⟨[], [], []⟩ with
  | none => .error .fuelExhausted
  | some (.error e) => .error e
  | some (.ok s) =>
    match lookupAllProjects (projectMap ps) s.ordered with
    | .error e => .error e
    | .ok l => .ok (sortPrio l)

/-- Decidable equality of `Except` results, for evaluating the engine on
concrete inputs inside proofs. -/
instance {ε α : Type} [DecidableEq ε] [DecidableEq α] : DecidableEq (Except ε α)
  | .ok a, .ok b => by
      cases h : decide (a = b) with
      | true => exact isTrue (by simp_all)
      | false => exact isFalse (by simp_all)
  | .ok _, .error _ => isFalse (by simp)
  | .error _, .ok _ => isFalse (by simp)
  | .error e, .error f => by
      cases h : decide (e = f) with
      | true => exact isTrue (by simp_all)
      | false => exact isFalse (by simp_all)

/-- Round-half-to-even of a rational to an integer, the rounding mode of
Python's `round` (modelled on the exact rational value). -/
def roundHalfEven (q : ℚ) : ℤ :=
  if q - ⌊q⌋ < 1/2 then ⌊q⌋
  else if 1/2 < q - ⌊q⌋ then ⌊q⌋ + 1
  else if ⌊q⌋ % 2 = 0 then ⌊q⌋ else ⌊q⌋ + 1

/-- Python's `round(q, ndigits)` for nonnegative `ndigits`, on the exact
rational value. -/
def pyRound (ndigits : ℕ) (q : ℚ) : ℚ :=
  (roundHalfEven (q * 10 ^ ndigits) : ℚ) / 10 ^ ndigits

/-- Python's `str.lower()`, modelled character by character. -/
def pyLower (s : String) : String := ⟨s.data.map Char.toLower⟩

/-- The skill-match computation of `_assign_best_developer` (src/optimizer.py
lines 162-166): 100 unless both the task's required skills and the worker's
skills are non-empty, else the number of distinct case-insensitive skills in
common, divided by the number of required-skill entries, times 100, truncated
to an integer (`int(len(matched)/len(project_skills)*100)`). -/
def skillMatchCalc (devSkills reqSkills : List String) : ℕ :=
  if reqSkills ≠ [] ∧ devSkills ≠ [] then
    ((devSkills.map pyLower).toFinset ∩ (reqSkills.map pyLower).toFinset).card
      * 100 / reqSkills.length
  else 100

/-- A candidate entry of the `amplitudes` list of `_assign_best_developer`:
the developer, the cost `hours * rate` and the skill-match percentage (the
float amplitude itself is not stored; `ampGE` compares it exactly). -/
abbrev Candidate := Developer × ℚ × ℕ

/-- Exact comparison `amplitude x ≥ amplitude y` for two candidates for one
task of priority `p`, where
`amplitude = 1/(cost+1) * (skill_match/100) ** (p/5)` over the reals: for the
nonnegative skill fractions and positive `cost+1` produced by the solver this
inequality is equivalent to its fifth power with the factor `100^p`
cancelled, `sx^p * (cy+1)^5 ≥ sy^p * (cx+1)^5`. -/
def ampGE (p : ℤ) (x y : Candidate) : Bool :=
  decide ((x.2.2 : ℚ) ^ p * (y.2.1 + 1) ^ (5 : ℕ) ≥ (y.2.2 : ℚ) ^ p * (x.2.1 + 1) ^ (5 : ℕ))

/-- Stable insertion for the amplitude sort: an (originally earlier)
candidate is placed before the first list element whose amplitude it reaches,
so ties keep input order, as in Python's stable `sort(reverse=True)`. -/
def insertAmp (p : ℤ) (x : Candidate) : List Candidate → List Candidate
  | [] => [x]
  | y :: ys => if ampGE p x y then x :: y :: ys else y :: insertAmp p x ys

/-- The `amplitudes.sort(key=lambda x: x[1], reverse=True)` of
`_assign_best_developer`: stable sort by descending amplitude. -/
def sortAmp (p : ℤ) (l : List Candidate) : List Candidate := l.foldr (insertAmp p) []

/-- Errors of the engine: a propagated resolution error, the `ValueError`
"No developer has enough availability for project …" naming the task, and the
`AttributeError` raised by `_process_results` when it reads `.name` off the
plain-string variables of the stub quadratic program. -/
inductive OptError where
  | resolve (e : ResolveError)
  | infeasible (projectName : String)
  | attributeError
deriving DecidableEq, Repr

/-- Shallow embedding of `_assign_best_developer` (src/optimizer.py lines
136-190): keep every developer whose remaining availability covers the task's
hours, score each kept developer, and return the one of maximal amplitude
(first in input order on ties) with the task's hours, its cost and its skill
match; raise when no developer qualifies. -/
def _assign_best_developer (project : Project) (developers : List Developer)
    (availability : List (String × ℚ)) : Except OptError (Developer × ℚ × ℚ × ℕ) :=
  let amplitudes : List Candidate := developers.filterMap (fun dev =>
    if dgetD availability dev.name 0 < project.hours then none
    else
      some (dev, project.hours * dev.rate, skillMatchCalc dev.skills project.required_skills))
  match sortAmp project.priority amplitudes with
  | [] => .error (.infeasible project.name)
  | best :: _ => .ok (best.1, project.hours, best.2.1, best.2.2)

/-- An assignment record as produced by `run_optimization`. -/
structure Assignment where
  developer : String
  project : String
  hours : ℚ
  cost : ℚ
  skill_match : ℕ
deriving DecidableEq, Repr

/-- The message of a risk finding, with the formatted quantities carried
exactly (string formatting is abstracted). -/
inductive RiskMsg where
  | budgetNearlyExhausted (usagePercent : ℚ)
  | budgetUsageHigh (usagePercent : ℚ)
  | completionExceedsDeadline (overageDays : ℚ)
  | tightTimeline (bufferPercent : ℚ)
  | lowSkillMatches (count : ℕ)
  | overallocatedDevelopers (names : List String)
deriving DecidableEq, Repr

/-- Risk severities used by `_identify_risks`. -/
inductive Severity where
  | low
  | medium
  | high
deriving DecidableEq, Repr

/-- A risk finding. -/
structure Risk where
  message : RiskMsg
  severity : Severity
deriving DecidableEq, Repr

/-- The `dev_project_counts` dict of `_identify_risks`. -/
def devProjectCounts (assignments : List Assignment) : List (String × ℕ) :=
  assignments.foldl (fun d a => dinsert d a.developer (dgetD d a.developer 0 + 1)) []

/-- The budget block of `_identify_risks` (src/optimizer.py lines 210-221):
`usage% = total_cost/budget*100`; strictly above 95 a high finding, strictly
above 80 (and at most 95) a medium finding, otherwise nothing. -/
def budgetRisksOf (budget total_cost : ℚ) : List Risk :=
  if total_cost / budget * 100 > 95 then
    [⟨.budgetNearlyExhausted (total_cost / budget * 100), .high⟩]
  else if total_cost / budget * 100 > 80 then
    [⟨.budgetUsageHigh (total_cost / budget * 100), .medium⟩]
  else []

/-- The timeline block of `_identify_risks` (src/optimizer.py lines 223-234). -/
def timelineRisksOf (deadline completion_time : ℚ) : List Risk :=
  if completion_time > deadline then
    [⟨.completionExceedsDeadline (completion_time - deadline), .high⟩]
  else if (deadline - completion_time) / deadline * 100 < 10 then
    [⟨.tightTimeline ((deadline - completion_time) / deadline * 100), .medium⟩]
  else []

/-- The skill-match block of `_identify_risks` (src/optimizer.py lines
236-242). -/
def skillRisksOf (assignments : List Assignment) : List Risk :=
  if (assignments.filter (fun a => a.skill_match < 70)) ≠ [] then
    [⟨.lowSkillMatches (assignments.filter (fun a => a.skill_match < 70)).length,
      if (assignments.filter (fun a => a.skill_match < 70)).length < 3 then
        Severity.medium
      else Severity.high⟩]
  else []

/-- The overallocation block of `_identify_risks` (src/optimizer.py lines
244-254). -/
def overallocationRisksOf (assignments : List Assignment) : List Risk :=
  if ((devProjectCounts assignments).filter (fun kv => kv.2 > 2)) ≠ [] then
    [⟨.overallocatedDevelopers
        (((devProjectCounts assignments).filter (fun kv => kv.2 > 2)).map Prod.fst),
      .medium⟩]
  else []

/-- Shallow embedding of `_identify_risks` (src/optimizer.py lines 192-256):
budget risk, then timeline risk, then skill-match risk, then overallocation
risk, in that order. -/
def _identify_risks (assignments : List Assignment) (budget deadline : ℚ)
    (total_cost completion_time : ℚ) : List Risk :=
  budgetRisksOf budget total_cost ++ timelineRisksOf deadline completion_time ++
    skillRisksOf assignments ++ overallocationRisksOf assignments

/-- The result record of `run_optimization`. -/
structure OptResult where
  assignments : List Assignment
  total_cost : ℚ
  budget_remaining : ℚ
  completion_time : ℚ
  time_buffer : ℚ
  risks : List Risk
deriving DecidableEq, Repr

/-- The mutable loop state of `run_optimization`'s assignment loop. -/
structure OptState where
  assignments : List Assignment
  total_cost : ℚ
  max_days : ℚ
  avail : List (String × ℚ)
deriving DecidableEq, Repr

/-- The initial `dev_availability` ledger:
`{dev['name']: dev['hours_per_day'] * deadline for dev in developers}`. -/
def dev_availability_init (developers : List Developer) (deadline : ℚ) :
    List (String × ℚ) :=
  developers.foldl (fun d dev => dinsert d dev.name (dev.hours_per_day * deadline)) []

/-- `dev_availability[best_dev['name']] -= hours_needed`: decrement the (unique,
existing) ledger entry in place. -/
def updateSub (d : List (String × ℚ)) (k : String) (h : ℚ) : List (String × ℚ) :=
  d.map (fun kv => if kv.1 == k then (kv.1, kv.2 - h) else kv)

/-- The initial loop state of `run_optimization`. -/
def initOptState (developers : List Developer) (deadline : ℚ) : OptState :=
  ⟨[], 0, 0, dev_availability_init developers deadline⟩

/-- The `for project in ordered_projects` loop of `run_optimization`: assign
the best developer, track the per-task duration maximum, decrement the
developer's availability, accumulate cost and record the assignment. -/
def goLoop (developers : List Developer) :
    List Project → OptState → Except OptError OptState
  | [], s => .ok s
  | project :: rest, s =>
    match _assign_best_developer project developers s.avail with
    | .error e => .error e
    | .ok (best_dev, hours_needed, cost, skill_match) =>
      let days_needed := hours_needed / best_dev.hours_per_day
      goLoop developers rest
        { assignments := s.assignments ++
            [⟨best_dev.name, project.name, hours_needed, cost, skill_match⟩],
          total_cost := s.total_cost + cost,
          max_days := max s.max_days days_needed,
          avail := updateSub s.avail best_dev.name hours_needed }

/-- The final result record of `run_optimization` (risks are computed from the
unrounded totals, the reported fields are rounded as in the source). -/
def mkResult (budget deadline : ℚ) (s : OptState) : OptResult :=
  { assignments := s.assignments,
    total_cost := pyRound 2 s.total_cost,
    budget_remaining := pyRound 2 (budget - s.total_cost),
    completion_time := pyRound 1 s.max_days,
    time_buffer := pyRound 1 (deadline - s.max_days),
    risks := _identify_risks s.assignments budget deadline s.total_cost s.max_days }

/-- Shallow embedding of `run_optimization` (src/optimizer.py lines 11-84):
resolve dependencies, run the greedy assignment loop over the resulting
order, then build the result with rounded totals and the risk findings. -/
def run_optimization (budget deadline : ℚ) (developers : List Developer)
    (projects : List Project) : Except OptError OptResult :=
  match _resolve_dependencies projects with
  | .error e => .error (.resolve e)
  | .ok ordered_projects =>
    match goLoop developers ordered_projects (initOptState developers deadline) with
    | .error e => .error e
    | .ok s => .ok (mkResult budget deadline s)

/-- The running maximum of `max(dev_times.values())` with `0` for an empty
dict, as in `_calculate_metrics`. -/
def listMaxD (l : List ℚ) : ℚ :=
  match l with
  | [] => 0
  | v :: vs => vs.foldl max v

/-- Shallow embedding of `QuantumWorkflowOptimizer._calculate_metrics`
(src/quantum_optimizer.py lines 425-458): the total cost of the assignments,
and the completion time as the maximum over developers of that developer's
total assigned hours divided by their hours per day (developers not found in
the list are skipped). -/
def _calculate_metrics (assignments : List Assignment)
    (developers : List Developer) : ℚ × ℚ :=
  let total_cost := (assignments.map (fun a => a.cost)).sum
  let dev_workloads :=
    assignments.foldl (fun d a => dinsert d a.developer (dgetD d a.developer 0 + a.hours)) []
  let dev_times := dev_workloads.foldl (fun d kv =>
    match developers.find? (fun dv => dv.name == kv.1) with
    | some dv => dinsert d kv.1 (kv.2 / dv.hours_per_day)
    | none => d) []
  let completion_time := listMaxD (dev_times.map Prod.snd)
  (total_cost, completion_time)

/-- The binary-variable names `x_{i}_{j}` that `_create_qubo` registers, one
per developer/task pair; with the stub `QuadraticProgram` these plain strings
are all that survives of the quadratic program. -/
def quboVarNames (developers : List Developer) (projects : List Project) : List String :=
  (List.range developers.length).flatMap (fun i =>
    (List.range projects.length).map (fun j =>
      "x_" ++ toString i ++ "_" ++ toString j))

/-- Shallow embedding of `_process_results` on the result of the stub solver
(`success=True`, an all-zero `x`, plain-string variables): building
`vars_dict` reads `var.name` off each variable, which raises
`AttributeError` on the first (string) variable; with no variables the dict
is empty, no `x_{i}_{j}` test succeeds, and no assignment is produced. -/
def _process_results_stub (vars : List String) :
    Except OptError (List Assignment) :=
  match vars with
  | [] => .ok []
  | _ :: _ => .error .attributeError

/-- The result of `QuantumWorkflowOptimizer.optimize`: the fields of the
greedy result plus the optional `quantum_powered` flag, which only the
quantum-path result dict carries. -/
structure QOptResult where
  toOptResult : OptResult
  quantum_powered : Option Bool
deriving DecidableEq, Repr

namespace QuantumWorkflowOptimizer

/-- Shallow embedding of `QuantumWorkflowOptimizer.optimize`
(src/quantum_optimizer.py lines 148-209) with the solving capability
unavailable, i.e. with the stub fallback classes standing in for the external
solver library. The body resolves dependencies, builds the (stub) QUBO over
the ordered tasks and, if `use_quantum`, runs the stub solver — which always
reports success with an all-zero solution — and processes its results; with
`use_quantum` false it returns `run_optimization` on the original inputs.
Any exception falls into the handler, which again returns `run_optimization`
on the same inputs. (With a zero budget or deadline the source raises a
`ZeroDivisionError` already inside `_create_qubo` instead of the later
`AttributeError`; both land in the same handler, so the outcome is the
`run_optimization` fallback either way and the embedding keeps a single
error path.) -/
def optimize (use_quantum : Bool) (budget deadline : ℚ)
    (developers : List Developer) (projects : List Project) :
    Except OptError QOptResult :=
  let tryBody : Except OptError QOptResult :=
    match _resolve_dependencies projects with
    | .error e => .error (.resolve e)
    | .ok ordered_projects =>
      if use_quantum then
        match _process_results_stub (quboVarNames developers ordered_projects) with
        | .error e => .error e
        | .ok assignments =>
          let m := _calculate_metrics assignments developers
          .ok { toOptResult :=
                  { assignments := assignments,
                    total_cost := pyRound 2 m.1,
                    budget_remaining := pyRound 2 (budget - m.1),
                    completion_time := pyRound 1 m.2,
                    time_buffer := pyRound 1 (deadline - m.2),
                    risks := _identify_risks assignments budget deadline m.1 m.2 },
                quantum_powered := some true }
      else
        (run_optimization budget deadline developers projects).map
          (fun r => { toOptResult := r, quantum_powered := none })
  match tryBody with
  | .ok r => .ok r
  | .error _ =>
    (run_optimization budget deadline developers projects).map
      (fun r => { toOptResult := r, quantum_powered := none })

end QuantumWorkflowOptimizer

/-- The dependency relation of the built graph: `Edge g u v` holds when `v`
is a non-empty dependency entry of task `u` (the traversal skips the empty
string, so only such entries constrain the order). -/
def Edge (g : List (String × List String)) (u v : String) : Prop :=
  v ≠ "" ∧ v ∈ depsOf g u

/-- `before l a b`: both occur in `l` and `a`'s first occurrence is strictly
earlier than `b`'s. -/
def before (l : List String) (a b : String) : Prop :=
  a ∈ l ∧ b ∈ l ∧ l.indexOf a < l.indexOf b

/-- Invariant of the depth-first traversal state: the output is duplicate
free, the visited set is exactly the membership of the output, in-progress
names are not yet output, the in-progress path is duplicate free, and every
dependency of an output task is output strictly before it. -/
def DfsInv (g : List (String × List String)) (s : DfsState) : Prop :=
  s.ordered.Nodup ∧
  (∀ x, x ∈ s.visited ↔ x ∈ s.ordered) ∧
  (∀ x ∈ s.temp, x ∉ s.ordered) ∧
  s.temp.Nodup ∧
  (∀ u v, Edge g u v → u ∈ s.ordered → before s.ordered v u)

/-- Call context of `visit`: the in-progress list is an edge path (each entry
was called while visiting the next one), and the current name was requested
by the most recent in-progress entry, when there is one. -/
def PathTo (g : List (String × List String)) (temp : List String) (n : String) : Prop :=
  List.Chain' (fun a b => Edge g b a) temp ∧ ∀ c, temp.head? = some c → Edge g c n

/-- Postcondition of a successful `visit` call: the in-progress path is
restored, the visited set only grows, the visited name is visited, the output
only grows at its end, and the traversal invariant is preserved. -/
def VisitOk (g : List (String × List String)) (n : String) (s s' : DfsState) : Prop :=
  s'.temp = s.temp ∧
  (∀ x ∈ s.visited, x ∈ s'.visited) ∧
  n ∈ s'.visited ∧
  (∃ ext, s'.ordered = s.ordered ++ ext) ∧
  (DfsInv g s → DfsInv g s')

/-- Postcondition of a failing `visit` call: the error is the cycle error,
and — when the call context is a genuine traversal context — the reported
name lies on a dependency cycle. -/
def VisitErr (g : List (String × List String)) (n : String) (s : DfsState)
    (e : ResolveError) : Prop :=
  ∃ t, e = ResolveError.cycle t ∧
    (PathTo g s.temp n → DfsInv g s → Relation.TransGen (Edge g) t t)

/-- Combined postcondition of `visit`. -/
def VisitPost (g : List (String × List String)) (n : String) (s : DfsState)
    (res : Except ResolveError DfsState) : Prop :=
  (∀ s', res = .ok s' → VisitOk g n s s') ∧ (∀ e, res = .error e → VisitErr g n s e)

/-- Postcondition of a successful dependency loop over `ds`: like `VisitOk`,
and additionally every non-empty dependency in `ds` ends up visited. -/
def DepsOk (g : List (String × List String)) (ds : List String) (s s' : DfsState) : Prop :=
  s'.temp = s.temp ∧
  (∀ x ∈ s.visited, x ∈ s'.visited) ∧
  (∀ d ∈ ds, d ≠ "" → d ∈ s'.visited) ∧
  (∃ ext, s'.ordered = s.ordered ++ ext) ∧
  (DfsInv g s → DfsInv g s')

/-- Postcondition of a failing dependency loop run for the node `ctx`: the
error is a cycle error whose name lies on a cycle, provided the in-progress
path is an edge path headed by `ctx`. -/
def DepsErr (g : List (String × List String)) (ctx : String) (s : DfsState)
    (e : ResolveError) : Prop :=
  ∃ t, e = ResolveError.cycle t ∧
    (s.temp.head? = some ctx →
      List.Chain' (fun a b => Edge g b a) s.temp →
      DfsInv g s → Relation.TransGen (Edge g) t t)

/-- The hours-per-day of the (unique) developer with a given name; the
default is irrelevant because the engine only records names of developers
from its worker list. -/
def hpdOf (developers : List Developer) (n : String) : ℚ :=
  match developers.find? (fun d => d.name == n) with
  | some d => d.hours_per_day
  | none => 1

/-- The maximum over a list of assignments of that assignment's hours divided
by the assigned developer's hours per day — the quantity `run_optimization`
accumulates in `max_days`. -/
def maxDaysOf (developers : List Developer) (assignments : List Assignment) : ℚ :=
  assignments.foldl (fun m a => max m (a.hours / hpdOf developers a.developer)) 0

/-- Total hours of the assignments committed to a given developer name. -/
def sumHoursFor (assignments : List Assignment) (n : String) : ℚ :=
  ((assignments.filter (fun a => a.developer == n)).map (fun a => a.hours)).sum

/-- The capacity-ledger invariant of the greedy loop: the ledger keeps
exactly the initial keys, every entry equals its initial capacity minus the
hours of the assignments committed to that developer, and no entry is
negative. -/
def LedgerInvariant (developers : List Developer) (deadline : ℚ) (s : OptState) : Prop :=
  s.avail.map Prod.fst = (dev_availability_init developers deadline).map Prod.fst ∧
  (∀ n, dgetD s.avail n 0 =
    dgetD (dev_availability_init developers deadline) n 0 - sumHoursFor s.assignments n) ∧
  (∀ n, 0 ≤ dgetD s.avail n 0)

/-! ## Generic dictionary lemmas -/

theorem dfind?_nil {α : Type} (k : String) : dfind? ([] : List (String × α)) k = none := rfl

theorem dfind?_cons {α : Type} (kv : String × α) (d : List (String × α)) (k : String) :
    dfind? (kv :: d) k = if kv.1 = k then some kv.2 else dfind? d k := by
  by_cases h : kv.1 = k
  · simp [dfind?, List.find?, h]
  · have hb : (kv.1 == k) = false := by simp [h]
    simp only [dfind?, List.find?, hb, if_neg h]

theorem dfind?_append {α : Type} (d e : List (String × α)) (k : String) :
    dfind? (d ++ e) k = (dfind? d k).or (dfind? e k) := by
  induction d with
  | nil => simp [dfind?_nil]
  | cons kv d ih =>
    rw [List.cons_append, dfind?_cons, dfind?_cons]
    by_cases h : kv.1 = k <;> simp [h, ih]

theorem dfind?_map_override_hit {α : Type} (k : String) (v : α) :
    ∀ (d : List (String × α)), (∃ kv ∈ d, kv.1 = k) →
      dfind? (d.map (fun kv => if kv.1 == k then (k, v) else kv)) k = some v := by
  intro d
  induction d with
  | nil => rintro ⟨kv, hkv, -⟩; cases hkv
  | cons kv d ih =>
    rintro ⟨kv₀, hkv₀, hk₀⟩
    rw [List.map_cons, dfind?_cons]
    by_cases h : kv.1 = k
    · have hb : (kv.1 == k) = true := by simp [h]
      rw [hb]
      simp
    · have hb : (kv.1 == k) = false := by simp [h]
      rw [hb]
      simp only [Bool.false_eq_true, if_false, if_neg h]
      rcases List.mem_cons.mp hkv₀ with he | he
      · exact absurd (he ▸ hk₀) h
      · exact ih ⟨kv₀, he, hk₀⟩

theorem dfind?_map_override_miss {α : Type} (k k' : String) (v : α) (hne : k' ≠ k) :
    ∀ (d : List (String × α)),
      dfind? (d.map (fun kv => if kv.1 == k then (k, v) else kv)) k' = dfind? d k' := by
  intro d
  induction d with
  | nil => rfl
  | cons kv d ih =>
    rw [List.map_cons, dfind?_cons, dfind?_cons]
    by_cases h : kv.1 = k
    · have hb : (kv.1 == k) = true := by simp [h]
      rw [hb]
      have h1 : ¬((k, v).1 = k') := fun he => hne he.symm
      have h2 : ¬(kv.1 = k') := fun he => hne (h ▸ he : k = k').symm
      simp only [if_true, if_neg h1, if_neg h2, ih]
    · have hb : (kv.1 == k) = false := by simp [h]
      rw [hb]
      simp only [Bool.false_eq_true, if_false]
      by_cases h3 : kv.1 = k'
      · rw [if_pos h3, if_pos h3]
      · rw [if_neg h3, if_neg h3, ih]

theorem dfind?_dinsert {α : Type} (d : List (String × α)) (k k' : String) (v : α) :
    dfind? (dinsert d k v) k' = if k' = k then some v else dfind? d k' := by
  unfold dinsert
  by_cases hmem : d.any (fun kv => kv.1 == k) = true
  · rw [if_pos hmem]
    simp only [List.any_eq_true, beq_iff_eq] at hmem
    by_cases hk' : k' = k
    · rw [if_pos hk', hk']
      exact dfind?_map_override_hit k v d hmem
    · rw [if_neg hk']
      exact dfind?_map_override_miss k k' v hk' d
  · rw [if_neg hmem]
    have hnone : dfind? d k = none := by
      simp only [List.any_eq_true, beq_iff_eq, not_exists, not_and] at hmem
      induction d with
      | nil => rfl
      | cons kv d ih =>
        rw [dfind?_cons]
        have h1 : ¬(kv.1 = k) := hmem kv (List.mem_cons_self kv d)
        rw [if_neg h1]
        exact ih (fun x hx => hmem x (List.mem_cons_of_mem kv hx))
    rw [dfind?_append]
    by_cases hk' : k' = k
    · rw [if_pos hk', hk', hnone]
      simp [dfind?_cons]
    · rw [if_neg hk']
      have : dfind? [(k, v)] k' = none := by
        rw [dfind?_cons, if_neg (fun he => hk' he.symm)]
        rfl
      rw [this, Option.or_none]

theorem dfind?_foldl_build {α β : Type} (kf : β → String) (vf : β → α) (k : String) :
    ∀ (l : List β) (d₀ : List (String × α)),
      k ∉ l.map kf →
      dfind? (l.foldl (fun d x => dinsert d (kf x) (vf x)) d₀) k = dfind? d₀ k := by
  intro l
  induction l with
  | nil => intro d₀ _; rfl
  | cons x l ih =>
    intro d₀ hk
    simp only [List.map_cons, List.mem_cons, not_or] at hk
    simp only [List.foldl_cons]
    rw [ih _ hk.2, dfind?_dinsert, if_neg hk.1]

theorem dfind?_foldl_build_mem {α β : Type} (kf : β → String) (vf : β → α) :
    ∀ (l : List β) (x : β), x ∈ l → (l.map kf).Nodup →
      dfind? (l.foldl (fun d y => dinsert d (kf y) (vf y)) []) (kf x) = some (vf x) := by
  have main : ∀ (l : List β) (d₀ : List (String × α)) (x : β), x ∈ l → (l.map kf).Nodup →
      dfind? (l.foldl (fun d y => dinsert d (kf y) (vf y)) d₀) (kf x) = some (vf x) := by
    intro l
    induction l with
    | nil => intro _ x hx; exact absurd hx (List.not_mem_nil x)
    | cons y l ih =>
      intro d₀ x hx hnd
      simp only [List.map_cons, List.nodup_cons] at hnd
      rcases List.mem_cons.mp hx with h | h
      · subst h
        simp only [List.foldl_cons]
        rw [dfind?_foldl_build kf vf (kf x) l _ hnd.1, dfind?_dinsert, if_pos rfl]
      · exact ih _ x h hnd.2
  exact fun l x hx hnd => main l [] x hx hnd

theorem dfind?_foldl_build_some {α β : Type} (kf : β → String) (vf : β → α) (k : String) :
    ∀ (l : List β) (v : α),
      dfind? (l.foldl (fun d y => dinsert d (kf y) (vf y)) []) k = some v →
      ∃ x ∈ l, kf x = k ∧ v = vf x := by
  have main : ∀ (l : List β) (d₀ : List (String × α)) (v : α),
      dfind? (l.foldl (fun d y => dinsert d (kf y) (vf y)) d₀) k = some v →
      (∃ x ∈ l, kf x = k ∧ v = vf x) ∨ dfind? d₀ k = some v := by
    intro l
    induction l with
    | nil => intro d₀ v h; exact Or.inr h
    | cons y l ih =>
      intro d₀ v h
      simp only [List.foldl_cons] at h
      rcases ih _ v h with ⟨x, hx, hk, hv⟩ | h'
      · exact Or.inl ⟨x, List.mem_cons_of_mem _ hx, hk, hv⟩
      · rw [dfind?_dinsert] at h'
        by_cases hk : k = kf y
        · rw [if_pos hk] at h'
          exact Or.inl ⟨y, List.mem_cons_self y l, hk.symm, (Option.some.injEq _ _ ▸ h').symm⟩
        · rw [if_neg hk] at h'
          exact Or.inr h'
  intro l v h
  rcases main l [] v h with h' | h'
  · exact h'
  · cases h'

theorem dfind?_eq_none_iff {α : Type} (d : List (String × α)) (k : String) :
    dfind? d k = none ↔ k ∉ d.map Prod.fst := by
  induction d with
  | nil => simp [dfind?_nil]
  | cons kv d ih =>
    rw [dfind?_cons, List.map_cons]
    by_cases h : kv.1 = k
    · simp [h]
    · simp only [if_neg h, List.mem_cons, not_or, ih]
      constructor
      · intro hh
        exact ⟨fun he => h he.symm, hh⟩
      · intro hh
        exact hh.2

theorem dfind?_updateSub (d : List (String × ℚ)) (k k' : String) (h : ℚ) :
    dfind? (updateSub d k h) k' =
      if k' = k then (dfind? d k').map (fun v => v - h) else dfind? d k' := by
  induction d with
  | nil => by_cases hk : k' = k <;> simp [updateSub, dfind?_nil, hk]
  | cons kv d ih =>
    show dfind? ((if (kv.1 == k) = true then (kv.1, kv.2 - h) else kv) :: updateSub d k h) k' = _
    by_cases hkv : kv.1 = k
    · have h2 : ((if (kv.1 == k) = true then (kv.1, kv.2 - h) else kv)) = (kv.1, kv.2 - h) := by
        simp [hkv]
      rw [h2, dfind?_cons, dfind?_cons]
      by_cases hk' : kv.1 = k'
      · have : k' = k := hk' ▸ hkv
        rw [if_pos hk', if_pos hk', if_pos this]
        rfl
      · rw [if_neg hk', if_neg hk', ih]
    · have h2 : ((if (kv.1 == k) = true then (kv.1, kv.2 - h) else kv)) = kv := by simp [hkv]
      rw [h2, dfind?_cons, dfind?_cons]
      by_cases hk' : kv.1 = k'
      · have : ¬(k' = k) := fun he => hkv (he ▸ hk')
        rw [if_pos hk', if_pos hk', if_neg this]
      · rw [if_neg hk', if_neg hk', ih]

theorem updateSub_keys (d : List (String × ℚ)) (k : String) (h : ℚ) :
    (updateSub d k h).map Prod.fst = d.map Prod.fst := by
  induction d with
  | nil => rfl
  | cons kv d ih =>
    show ((if (kv.1 == k) = true then (kv.1, kv.2 - h) else kv) :: updateSub d k h).map Prod.fst = _
    by_cases hk : kv.1 = k <;> simp_all

/-! ## C1 and C3: dependency resolution on concrete failing inputs -/

/-- C1: the claim that `_resolve_dependencies` always returns a valid
topological order fails on the code: for the two tasks `A` (priority 1, no
dependencies) and `B` (priority 5, depending on `A`), the final
`sort(key=lambda x: -priority)` reorders the topologically sorted list
`[A, B]` into `[B, A]`, placing `B` strictly before its prerequisite `A`.
The code contradicts its own docstring ("Ordered list of projects respecting
dependencies") and its comment ("Sort by priority for projects without
dependencies", while it sorts all projects). -/
theorem resolve_dependencies_priority_sort_violates_topological_order :
    _resolve_dependencies
        [⟨"A", 5, 1, [], []⟩, ⟨"B", 5, 5, ["A"], []⟩] =
      .ok [⟨"B", 5, 5, ["A"], []⟩, ⟨"A", 5, 1, [], []⟩] ∧
    ("A" : String) ∈ (Project.mk "B" 5 5 ["A"] []).dependencies := by
  exact ⟨by decide, by decide⟩

/-- C3: the claim that a dependency naming no task in the input is silently
skipped fails on the code: for the single task `A` with the dangling
dependency `"X"`, the traversal appends `"X"` to `ordered`, and the final
comprehension `[project_map[name] for name in ordered]` raises `KeyError`
on it, so the run aborts instead of returning `[A]`. -/
theorem resolve_dependencies_missing_dependency_raises_keyError :
    _resolve_dependencies [⟨"A", 5, 3, ["X"], []⟩] = .error (.keyError "X") := by
  decide

/-! ## Lemmas about the greedy solver -/

theorem mem_insertAmp {p : ℤ} {x y : Candidate} :
    ∀ {l : List Candidate}, y ∈ insertAmp p x l → y = x ∨ y ∈ l := by
  intro l
  induction l with
  | nil => intro h; exact Or.inl (List.mem_singleton.mp h)
  | cons z l ih =>
    intro h
    unfold insertAmp at h
    by_cases hc : ampGE p x z
    · rw [if_pos hc] at h
      rcases List.mem_cons.mp h with h | h
      · exact Or.inl h
      · exact Or.inr h
    · rw [if_neg hc] at h
      rcases List.mem_cons.mp h with h | h
      · exact Or.inr (h ▸ List.mem_cons_self z l)
      · rcases ih h with h | h
        · exact Or.inl h
        · exact Or.inr (List.mem_cons_of_mem z h)

theorem mem_sortAmp {p : ℤ} {y : Candidate} :
    ∀ {l : List Candidate}, y ∈ sortAmp p l → y ∈ l := by
  intro l
  induction l with
  | nil => intro h; simpa [sortAmp] using h
  | cons x l ih =>
    intro h
    rcases mem_insertAmp (show y ∈ insertAmp p x (sortAmp p l) from h) with h | h
    · exact h ▸ List.mem_cons_self x l
    · exact List.mem_cons_of_mem x (ih h)

theorem assign_best_ok {proj : Project} {devs : List Developer}
    {avail : List (String × ℚ)} {bd : Developer} {h c : ℚ} {sm : ℕ} :
    _assign_best_developer proj devs avail = .ok (bd, h, c, sm) →
    bd ∈ devs ∧ h = proj.hours ∧ c = proj.hours * bd.rate ∧
      sm = skillMatchCalc bd.skills proj.required_skills ∧
      proj.hours ≤ dgetD avail bd.name 0 := by
  intro hok
  simp only [_assign_best_developer] at hok
  split at hok
  · cases hok
  · rename_i best rest hs
    have hbest : best ∈ devs.filterMap (fun dev =>
        if dgetD avail dev.name 0 < proj.hours then none
        else some (dev, proj.hours * dev.rate,
          skillMatchCalc dev.skills proj.required_skills)) :=
      mem_sortAmp (hs ▸ List.mem_cons_self best rest)
    rw [List.mem_filterMap] at hbest
    obtain ⟨dev, hdev, hf⟩ := hbest
    by_cases hlt : dgetD avail dev.name 0 < proj.hours
    · rw [if_pos hlt] at hf; cases hf
    · rw [if_neg hlt] at hf
      have hbe : best = (dev, proj.hours * dev.rate,
          skillMatchCalc dev.skills proj.required_skills) := by
        injection hf with hf; exact hf.symm
      simp only [Except.ok.injEq, Prod.mk.injEq] at hok
      obtain ⟨h1, h2, h3, h4⟩ := hok
      subst hbe
      simp only at h1 h3 h4
      subst h1
      exact ⟨hdev, h2.symm, h3.symm, h4.symm, not_lt.mp hlt⟩

theorem assign_best_infeasible {proj : Project} {devs : List Developer}
    {avail : List (String × ℚ)}
    (hall : ∀ dev ∈ devs, dgetD avail dev.name 0 < proj.hours) :
    _assign_best_developer proj devs avail = .error (.infeasible proj.name) := by
  unfold _assign_best_developer
  have hnil : devs.filterMap (fun dev =>
      if dgetD avail dev.name 0 < proj.hours then none
      else some (dev, proj.hours * dev.rate,
        skillMatchCalc dev.skills proj.required_skills)) = [] := by
    rw [List.filterMap_eq_nil_iff]
    intro dev hdev
    rw [if_pos (hall dev hdev)]
  rw [hnil]
  rfl

theorem find?_developer_self {devs : List Developer} {bd : Developer}
    (hmem : bd ∈ devs) (hnd : (devs.map Developer.name).Nodup) :
    devs.find? (fun d => d.name == bd.name) = some bd := by
  induction devs with
  | nil => cases hmem
  | cons d devs ih =>
    rw [List.map_cons, List.nodup_cons] at hnd
    rcases List.mem_cons.mp hmem with he | he
    · subst he
      rw [List.find?_cons_of_pos _ (by simp)]
    · have hne : d.name ≠ bd.name := by
        intro hcontra
        exact hnd.1 (hcontra ▸ List.mem_map_of_mem Developer.name he)
      rw [List.find?_cons_of_neg _ (by simp [hne])]
      exact ih he hnd.2

theorem hpdOf_eq {devs : List Developer} {bd : Developer}
    (hmem : bd ∈ devs) (hnd : (devs.map Developer.name).Nodup) :
    hpdOf devs bd.name = bd.hours_per_day := by
  unfold hpdOf
  rw [find?_developer_self hmem hnd]

theorem maxDaysOf_append (devs : List Developer) (l : List Assignment) (a : Assignment) :
    maxDaysOf devs (l ++ [a]) = max (maxDaysOf devs l) (a.hours / hpdOf devs a.developer) := by
  unfold maxDaysOf
  rw [List.foldl_append]
  rfl

theorem goLoop_max_days {devs : List Developer}
    (hnd : (devs.map Developer.name).Nodup) :
    ∀ (l : List Project) (s s' : OptState), goLoop devs l s = .ok s' →
      s.max_days = maxDaysOf devs s.assignments →
      s'.max_days = maxDaysOf devs s'.assignments := by
  intro l
  induction l with
  | nil =>
    intro s s' hok hinv
    cases hok
    exact hinv
  | cons proj rest ih =>
    intro s s' hok hinv
    unfold goLoop at hok
    cases ha : _assign_best_developer proj devs s.avail with
    | error e => rw [ha] at hok; cases hok
    | ok res =>
      obtain ⟨bd, h, c, sm⟩ := res
      rw [ha] at hok
      obtain ⟨hbd, hh, hc, hsm, hge⟩ := assign_best_ok ha
      refine ih _ s' hok ?_
      show max s.max_days (h / bd.hours_per_day) = maxDaysOf devs (s.assignments ++ [⟨bd.name, proj.name, h, c, sm⟩])
      rw [maxDaysOf_append, ← hinv]
      show _ = max s.max_days ((⟨bd.name, proj.name, h, c, sm⟩ : Assignment).hours / hpdOf devs (⟨bd.name, proj.name, h, c, sm⟩ : Assignment).developer)
      have : hpdOf devs bd.name = bd.hours_per_day := hpdOf_eq hbd hnd
      simp only [this]

/-! ## C4: the skill-match percentage -/

/-- C4 counterexample: the claim's formula
`floor(|skills ∩ required|/|required|*100)` gives 0 for a worker with no
skills and the one required skill `python`, but the code's guard
`if project_skills and dev['skills']` skips the computation whenever the
worker's skill list is empty, leaving the initial value 100. -/
theorem skill_match_empty_worker_skills_counterexample :
    skillMatchCalc [] ["python"] = 100 ∧
    ((([] : List String).map pyLower).toFinset ∩
        ((["python"] : List String).map pyLower).toFinset).card * 100
      / (["python"] : List String).length = 0 := by
  exact ⟨by decide, by decide⟩

/-- C4 amended: the skill-match percentage equals
`floor(|worker.skills ∩ task.requiredSkills| / |task.requiredSkills| * 100)`
(intersection of distinct lower-cased tags, denominator counting list
entries) whenever both the worker's skills and the task's required skills
are non-empty — in particular it is 0 when additionally the intersection is
empty — and equals 100 when the task's required skills are empty or the
worker's skill list is empty. -/
theorem skill_match_formula (devSkills reqSkills : List String) :
    (reqSkills = [] → skillMatchCalc devSkills reqSkills = 100) ∧
    (devSkills = [] → skillMatchCalc devSkills reqSkills = 100) ∧
    (devSkills ≠ [] → reqSkills ≠ [] →
      (skillMatchCalc devSkills reqSkills : ℤ) =
        ⌊((((devSkills.map pyLower).toFinset ∩
            (reqSkills.map pyLower).toFinset).card : ℚ) * 100
          / (reqSkills.length : ℚ))⌋) ∧
    (devSkills ≠ [] → reqSkills ≠ [] →
      (devSkills.map pyLower).toFinset ∩ (reqSkills.map pyLower).toFinset = ∅ →
      skillMatchCalc devSkills reqSkills = 0) := by
  refine ⟨?_, ?_, ?_, ?_⟩
  · intro h
    unfold skillMatchCalc
    rw [if_neg (by simp [h])]
  · intro h
    unfold skillMatchCalc
    rw [if_neg (by simp [h])]
  · intro hd hr
    unfold skillMatchCalc
    rw [if_pos ⟨hr, hd⟩]
    have hcast : ((((devSkills.map pyLower).toFinset ∩
        (reqSkills.map pyLower).toFinset).card : ℚ) * 100) =
        ((((devSkills.map pyLower).toFinset ∩
          (reqSkills.map pyLower).toFinset).card * 100 : ℕ) : ℚ) := by
      push_cast
      ring
    rw [hcast, ← Int.natCast_floor_eq_floor (by positivity), Nat.floor_div_eq_div]
  · intro hd hr hempty
    unfold skillMatchCalc
    rw [if_pos ⟨hr, hd⟩, hempty]
    simp

/-- C4 amended, witness: a worker with skills `Python, SQL` and required
skills `python, java` has one matching tag out of two required, so the
formula and the code both give 50. -/
theorem skill_match_formula_witness :
    (skillMatchCalc ["Python", "SQL"] ["python", "java"] : ℤ) =
      ⌊((((["Python", "SQL"].map pyLower).toFinset ∩
          (["python", "java"].map pyLower).toFinset).card : ℚ) * 100
        / ((["python", "java"] : List String).length : ℚ))⌋ ∧
    skillMatchCalc ["Python", "SQL"] ["python", "java"] = 50 :=
  ⟨(skill_match_formula ["Python", "SQL"] ["python", "java"]).2.2.1
      (by decide) (by decide),
    by decide⟩

/-! ## C8: budget risk thresholds -/

theorem mem_budgetRisksOf (budget total_cost : ℚ) (r : Risk) :
    r ∈ budgetRisksOf budget total_cost ↔
      (total_cost / budget * 100 > 95 ∧
        r = ⟨.budgetNearlyExhausted (total_cost / budget * 100), .high⟩) ∨
      (80 < total_cost / budget * 100 ∧ total_cost / budget * 100 ≤ 95 ∧
        r = ⟨.budgetUsageHigh (total_cost / budget * 100), .medium⟩) := by
  unfold budgetRisksOf
  split_ifs with h95 h80
  · simp only [List.mem_singleton]
    constructor
    · intro h; exact Or.inl ⟨h95, h⟩
    · rintro (⟨-, h⟩ | ⟨-, hle, -⟩)
      · exact h
      · linarith
  · simp only [List.mem_singleton]
    constructor
    · intro h; exact Or.inr ⟨h80, not_lt.mp h95, h⟩
    · rintro (⟨h, -⟩ | ⟨-, -, h⟩)
      · exact absurd h h95
      · exact h
  · simp only [List.not_mem_nil, false_iff]
    rintro (⟨h, -⟩ | ⟨h, -, -⟩)
    · exact h95 h
    · exact h80 h

theorem timelineRisksOf_message (deadline completion_time : ℚ) (r : Risk)
    (h : r ∈ timelineRisksOf deadline completion_time) :
    (∃ u, r.message = .completionExceedsDeadline u) ∨
    (∃ u, r.message = .tightTimeline u) := by
  unfold timelineRisksOf at h
  split_ifs at h <;> simp_all

theorem skillRisksOf_message (assignments : List Assignment) (r : Risk)
    (h : r ∈ skillRisksOf assignments) :
    ∃ c, r.message = .lowSkillMatches c := by
  unfold skillRisksOf at h
  split_ifs at h <;> simp_all

theorem overallocationRisksOf_message (assignments : List Assignment) (r : Risk)
    (h : r ∈ overallocationRisksOf assignments) :
    ∃ ns, r.message = .overallocatedDevelopers ns := by
  unfold overallocationRisksOf at h
  split_ifs at h <;> simp_all

/-- C8: the budget risk finding of `_identify_risks` obeys exact strict
thresholds on `usage% = totalCost/budget*100`: the high-severity finding is
present exactly when usage is strictly greater than 95, the medium-severity
finding exactly when usage is strictly greater than 80 and at most 95, and
at usage at most 80 no budget finding of either kind is present (so exactly
95 yields no high finding and exactly 80 no finding at all). -/
theorem budget_risk_thresholds (assignments : List Assignment)
    (budget deadline total_cost completion_time : ℚ) :
    ((Risk.mk (.budgetNearlyExhausted (total_cost / budget * 100)) .high ∈
        _identify_risks assignments budget deadline total_cost completion_time) ↔
      total_cost / budget * 100 > 95) ∧
    ((Risk.mk (.budgetUsageHigh (total_cost / budget * 100)) .medium ∈
        _identify_risks assignments budget deadline total_cost completion_time) ↔
      (80 < total_cost / budget * 100 ∧ total_cost / budget * 100 ≤ 95)) ∧
    (total_cost / budget * 100 ≤ 80 →
      ∀ r ∈ _identify_risks assignments budget deadline total_cost completion_time,
        (∀ u, r.message ≠ .budgetNearlyExhausted u) ∧
        (∀ u, r.message ≠ .budgetUsageHigh u)) := by
  refine ⟨?_, ?_, ?_⟩
  · constructor
    · intro hmem
      simp only [_identify_risks, List.mem_append] at hmem
      rcases hmem with ((h | h) | h) | h
      · rcases (mem_budgetRisksOf budget total_cost _).mp h with ⟨h95, -⟩ | ⟨-, -, heq⟩
        · exact h95
        · cases heq
      · rcases timelineRisksOf_message _ _ _ h with ⟨u, hu⟩ | ⟨u, hu⟩ <;> cases hu
      · obtain ⟨c, hc⟩ := skillRisksOf_message _ _ h; cases hc
      · obtain ⟨ns, hns⟩ := overallocationRisksOf_message _ _ h; cases hns
    · intro h95
      simp only [_identify_risks, List.mem_append]
      exact Or.inl (Or.inl (Or.inl
        ((mem_budgetRisksOf budget total_cost _).mpr (Or.inl ⟨h95, rfl⟩))))
  · constructor
    · intro hmem
      simp only [_identify_risks, List.mem_append] at hmem
      rcases hmem with ((h | h) | h) | h
      · rcases (mem_budgetRisksOf budget total_cost _).mp h with ⟨-, heq⟩ | ⟨h80, h95, -⟩
        · cases heq
        · exact ⟨h80, h95⟩
      · rcases timelineRisksOf_message _ _ _ h with ⟨u, hu⟩ | ⟨u, hu⟩ <;> cases hu
      · obtain ⟨c, hc⟩ := skillRisksOf_message _ _ h; cases hc
      · obtain ⟨ns, hns⟩ := overallocationRisksOf_message _ _ h; cases hns
    · rintro ⟨h80, h95⟩
      simp only [_identify_risks, List.mem_append]
      exact Or.inl (Or.inl (Or.inl
        ((mem_budgetRisksOf budget total_cost _).mpr (Or.inr ⟨h80, h95, rfl⟩))))
  · intro hle r hmem
    simp only [_identify_risks, List.mem_append] at hmem
    rcases hmem with ((h | h) | h) | h
    · rcases (mem_budgetRisksOf budget total_cost _).mp h with ⟨h95, -⟩ | ⟨h80, -, -⟩
      · linarith
      · linarith
    · rcases timelineRisksOf_message _ _ _ h with ⟨u, hu⟩ | ⟨u, hu⟩ <;>
        exact ⟨fun u' => by simp [hu], fun u' => by simp [hu]⟩
    · obtain ⟨c, hc⟩ := skillRisksOf_message _ _ h
      exact ⟨fun u' => by simp [hc], fun u' => by simp [hc]⟩
    · obtain ⟨ns, hns⟩ := overallocationRisksOf_message _ _ h
      exact ⟨fun u' => by simp [hns], fun u' => by simp [hns]⟩

/-- C8 witness: at budget 100 and total cost 90 the usage is 90%, so the iff
clauses decide that the medium finding is present and the high finding is
not, and the low-usage clause is vacuous. -/
theorem budget_risk_thresholds_witness :
    ((Risk.mk (.budgetNearlyExhausted ((90 : ℚ) / 100 * 100)) .high ∈
        _identify_risks [] 100 10 90 0) ↔ (90 : ℚ) / 100 * 100 > 95) ∧
    ((Risk.mk (.budgetUsageHigh ((90 : ℚ) / 100 * 100)) .medium ∈
        _identify_risks [] 100 10 90 0) ↔
      (80 < (90 : ℚ) / 100 * 100 ∧ (90 : ℚ) / 100 * 100 ≤ 95)) ∧
    ((90 : ℚ) / 100 * 100 ≤ 80 →
      ∀ r ∈ _identify_risks [] 100 10 90 0,
        (∀ u, r.message ≠ .budgetNearlyExhausted u) ∧
        (∀ u, r.message ≠ .budgetUsageHigh u)) :=
  budget_risk_thresholds [] 100 10 90 0

/-! ## Equation lemmas for `run_optimization` -/

theorem run_optimization_resolve_error {projects : List Project} {e : ResolveError}
    (budget deadline : ℚ) (developers : List Developer)
    (h : _resolve_dependencies projects = .error e) :
    run_optimization budget deadline developers projects = .error (.resolve e) := by
  unfold run_optimization
  rw [h]

theorem run_optimization_resolve_ok {projects : List Project} {l : List Project}
    (budget deadline : ℚ) (developers : List Developer)
    (h : _resolve_dependencies projects = .ok l) :
    run_optimization budget deadline developers projects =
      match goLoop developers l (initOptState developers deadline) with
      | .error e => .error e
      | .ok s => .ok (mkResult budget deadline s) := by
  unfold run_optimization
  rw [h]

/-! ## C2: the reported completion time -/

/-- C2 amended: for every successful run of the greedy engine the reported
completion time equals the maximum over all assignments of that assignment's
hours divided by the assigned worker's hours-per-day (rounded to one
decimal), and the reported time buffer equals the deadline minus that
maximum (rounded to one decimal). (The per-worker-totals formula of the
claim is implemented only by the quantum path's `_calculate_metrics`.) -/
theorem completion_time_is_max_assignment_days (budget deadline : ℚ)
    (developers : List Developer) (projects : List Project)
    (hnd : (developers.map Developer.name).Nodup) :
    (run_optimization budget deadline developers projects).map
        (fun r => (r.completion_time, r.time_buffer)) =
      (run_optimization budget deadline developers projects).map
        (fun r => (pyRound 1 (maxDaysOf developers r.assignments),
          pyRound 1 (deadline - maxDaysOf developers r.assignments))) := by
  cases hres : _resolve_dependencies projects with
  | error e => rw [run_optimization_resolve_error budget deadline developers hres]; rfl
  | ok ordered =>
    rw [run_optimization_resolve_ok budget deadline developers hres]
    cases hloop : goLoop developers ordered (initOptState developers deadline) with
    | error e => rfl
    | ok s =>
      have hmax : s.max_days = maxDaysOf developers s.assignments :=
        goLoop_max_days hnd ordered _ s hloop rfl
      simp only [Except.map, mkResult]
      rw [hmax]

/-! ## C6 and C7: infeasibility and the capacity ledger -/

theorem dfind?_foldl_build_none {α β : Type} (kf : β → String) (vf : β → α) (k : String) :
    ∀ (l : List β) (d₀ : List (String × α)),
      dfind? (l.foldl (fun d y => dinsert d (kf y) (vf y)) d₀) k = none →
      k ∉ l.map kf ∧ dfind? d₀ k = none := by
  intro l
  induction l with
  | nil => intro d₀ h; exact ⟨by simp, h⟩
  | cons y l ih =>
    intro d₀ h
    simp only [List.foldl_cons] at h
    obtain ⟨hnot, hins⟩ := ih _ h
    rw [dfind?_dinsert] at hins
    by_cases hk : k = kf y
    · rw [if_pos hk] at hins; cases hins
    · rw [if_neg hk] at hins
      refine ⟨?_, hins⟩
      simp only [List.map_cons, List.mem_cons, not_or]
      exact ⟨fun he => hk he, hnot⟩

theorem dev_availability_init_lookup (deadline : ℚ) {developers : List Developer}
    {d : Developer} (hd : d ∈ developers) :
    ∃ d' ∈ developers, d'.name = d.name ∧
      dgetD (dev_availability_init developers deadline) d.name 0 =
        d'.hours_per_day * deadline := by
  cases hf : dfind? (dev_availability_init developers deadline) d.name with
  | none =>
    have := (dfind?_foldl_build_none (fun dev : Developer => dev.name)
      (fun dev => dev.hours_per_day * deadline) d.name developers [] hf).1
    exact absurd (List.mem_map_of_mem (fun dev : Developer => dev.name) hd) this
  | some v =>
    obtain ⟨d', hd', hname, hv⟩ := dfind?_foldl_build_some
      (fun dev : Developer => dev.name) (fun dev => dev.hours_per_day * deadline)
      d.name developers v hf
    refine ⟨d', hd', hname, ?_⟩
    unfold dgetD
    rw [hf, hv]
    rfl

theorem dev_availability_present {developers : List Developer} {deadline : ℚ}
    {d : Developer} (hd : d ∈ developers) :
    dfind? (dev_availability_init developers deadline) d.name ≠ none := by
  intro hnone
  have := (dfind?_foldl_build_none (fun dev : Developer => dev.name)
    (fun dev => dev.hours_per_day * deadline) d.name developers [] hnone).1
  exact absurd (List.mem_map_of_mem (fun dev : Developer => dev.name) hd) this

theorem goLoop_infeasible_head {developers : List Developer} {t : Project}
    {rest : List Project} {s : OptState}
    (hall : ∀ dev ∈ developers, dgetD s.avail dev.name 0 < t.hours) :
    goLoop developers (t :: rest) s = .error (.infeasible t.name) := by
  unfold goLoop
  rw [assign_best_infeasible hall]

/-- C6: whenever at some task's turn no worker's remaining capacity covers
that task's required hours, the greedy solver raises the infeasibility error
naming that task — at the scoring step, at any point of the assignment loop,
and for a whole run whose first scheduled task exceeds every worker's
initial capacity — and the run returns that error instead of a plan. -/
theorem infeasible_task_raises_error :
    (∀ (proj : Project) (developers : List Developer) (avail : List (String × ℚ)),
      (∀ dev ∈ developers, dgetD avail dev.name 0 < proj.hours) →
      _assign_best_developer proj developers avail = .error (.infeasible proj.name)) ∧
    (∀ (developers : List Developer) (t : Project) (rest : List Project) (s : OptState),
      (∀ dev ∈ developers, dgetD s.avail dev.name 0 < t.hours) →
      goLoop developers (t :: rest) s = .error (.infeasible t.name)) ∧
    (∀ (budget deadline : ℚ) (developers : List Developer) (projects : List Project)
      (t : Project) (rest : List Project),
      _resolve_dependencies projects = .ok (t :: rest) →
      (∀ dev ∈ developers, dev.hours_per_day * deadline < t.hours) →
      run_optimization budget deadline developers projects = .error (.infeasible t.name)) := by
  refine ⟨fun proj developers avail hall => assign_best_infeasible hall,
    fun developers t rest s hall => goLoop_infeasible_head hall,
    fun budget deadline developers projects t rest hres hall => ?_⟩
  rw [run_optimization_resolve_ok budget deadline developers hres]
  have hall' : ∀ dev ∈ developers,
      dgetD (dev_availability_init developers deadline) dev.name 0 < t.hours := by
    intro dev hdev
    obtain ⟨d', hd', -, hv⟩ := dev_availability_init_lookup deadline hdev
    rw [hv]
    exact hall d' hd'
  have h2 : goLoop developers (t :: rest) (initOptState developers deadline) =
      .error (.infeasible t.name) := goLoop_infeasible_head hall'
  rw [h2]

theorem sumHoursFor_append (l : List Assignment) (a : Assignment) (n : String) :
    sumHoursFor (l ++ [a]) n =
      sumHoursFor l n + (if a.developer = n then a.hours else 0) := by
  unfold sumHoursFor
  rw [List.filter_append]
  by_cases h : a.developer = n <;>
    simp [h]

theorem goLoop_ledger {developers : List Developer} {deadline : ℚ} :
    ∀ (tasks : List Project) (s s' : OptState),
      LedgerInvariant developers deadline s →
      goLoop developers tasks s = .ok s' →
      LedgerInvariant developers deadline s' := by
  intro tasks
  induction tasks with
  | nil =>
    intro s s' hinv hok
    cases hok
    exact hinv
  | cons proj rest ih =>
    intro s s' hinv hok
    unfold goLoop at hok
    cases ha : _assign_best_developer proj developers s.avail with
    | error e => rw [ha] at hok; cases hok
    | ok res =>
      obtain ⟨bd, h, c, sm⟩ := res
      rw [ha] at hok
      obtain ⟨hbd, hh, hc, hsm, hge⟩ := assign_best_ok ha
      obtain ⟨hkeys, heq, hnn⟩ := hinv
      have hpresent : dfind? s.avail bd.name ≠ none := by
        intro hnone
        rw [dfind?_eq_none_iff, hkeys, ← dfind?_eq_none_iff] at hnone
        exact dev_availability_present hbd hnone
      refine ih _ s' ⟨?_, ?_, ?_⟩ hok
      · show (updateSub s.avail bd.name h).map Prod.fst = _
        rw [updateSub_keys]
        exact hkeys
      · intro n
        show dgetD (updateSub s.avail bd.name h) n 0 = _
        unfold dgetD
        rw [dfind?_updateSub, sumHoursFor_append]
        dsimp only
        by_cases hn : n = bd.name
        · rw [if_pos hn, if_pos hn.symm]
          cases hf : dfind? s.avail n with
          | none => rw [hn] at hf; exact absurd hf hpresent
          | some v =>
            have hv := heq n
            unfold dgetD at hv
            rw [hf] at hv
            simp only [Option.map_some', Option.getD_some] at hv ⊢
            rw [hv]
            ring
        · rw [if_neg hn, if_neg (fun he => hn he.symm)]
          have hv := heq n
          unfold dgetD at hv
          rw [hv]
          ring
      · intro n
        show (0 : ℚ) ≤ dgetD (updateSub s.avail bd.name h) n 0
        unfold dgetD
        rw [dfind?_updateSub]
        by_cases hn : n = bd.name
        · rw [if_pos hn]
          cases hf : dfind? s.avail n with
          | none => rw [hn] at hf; exact absurd hf hpresent
          | some v =>
            have hv : dgetD s.avail n 0 = v := by unfold dgetD; rw [hf]; rfl
            have h1 : proj.hours ≤ v := by
              rw [hn] at hv
              exact hv ▸ hge
            simp only [Option.map_some', Option.getD_some]
            rw [hh]
            linarith
        · rw [if_neg hn]
          have := hnn n
          unfold dgetD at this
          exact this

/-- C7: the capacity ledger starts at hours-per-day times deadline for every
worker, initially satisfies the ledger invariant, and the greedy loop
preserves it: after any sequence of committed assignments every entry equals
its initial capacity minus the hours committed to that worker (each
assignment decrementing its worker's entry exactly once), and no entry is
ever negative — a worker is only selected when its remaining capacity covers
the task's hours. -/
theorem capacity_ledger_invariant (developers : List Developer) (deadline : ℚ)
    (hdl : 0 ≤ deadline) (hw : ∀ d ∈ developers, 0 ≤ d.hours_per_day)
    (hnd : (developers.map Developer.name).Nodup) :
    (∀ d ∈ developers,
      dgetD (dev_availability_init developers deadline) d.name 0 =
        d.hours_per_day * deadline) ∧
    LedgerInvariant developers deadline (initOptState developers deadline) ∧
    (∀ (tasks : List Project) (s s' : OptState),
      LedgerInvariant developers deadline s →
      goLoop developers tasks s = .ok s' →
      LedgerInvariant developers deadline s') := by
  refine ⟨?_, ⟨rfl, ?_, ?_⟩, fun tasks s s' hinv hok => goLoop_ledger tasks s s' hinv hok⟩
  · intro d hd
    have h1 : dfind? (dev_availability_init developers deadline) d.name =
        some (d.hours_per_day * deadline) :=
      dfind?_foldl_build_mem (fun dev : Developer => dev.name)
        (fun dev => dev.hours_per_day * deadline) developers d hd hnd
    unfold dgetD
    rw [h1]
    rfl
  · intro n
    show dgetD (dev_availability_init developers deadline) n 0 =
      dgetD (dev_availability_init developers deadline) n 0 - sumHoursFor [] n
    have : sumHoursFor [] n = 0 := rfl
    rw [this]
    ring
  · intro n
    show (0 : ℚ) ≤ dgetD (dev_availability_init developers deadline) n 0
    cases hf : dfind? (dev_availability_init developers deadline) n with
    | none =>
      unfold dgetD
      rw [hf]
      exact le_refl 0
    | some v =>
      obtain ⟨d', hd', -, hv⟩ := dfind?_foldl_build_some
        (fun dev : Developer => dev.name) (fun dev => dev.hours_per_day * deadline)
        n developers v hf
      unfold dgetD
      rw [hf, hv]
      exact mul_nonneg (hw d' hd') hdl

/-! ## Concrete evaluations

The rational arithmetic of Batteries is `@[irreducible]`; within this
section it is made reducible again so that runs of the engine on concrete
inputs can be evaluated by `decide` inside the kernel. -/

section ConcreteEvaluations

attribute [local semireducible] Rat.add Rat.mul Rat.sub Rat.inv Rat.ofScientific

/-- C2 counterexample: one worker (8 hours/day) assigned two 8-hour tasks.
The engine reports completion time 1.0 (the maximum single-assignment
duration), while the claimed formula — the maximum over workers of total
assigned hours divided by hours-per-day, as computed by
`_calculate_metrics` of the quantum path — gives 16/8 = 2.0. -/
theorem completion_time_not_per_worker_total :
    (run_optimization 1000 10 [⟨"D", 1, 8, []⟩]
        [⟨"P1", 8, 3, [], []⟩, ⟨"P2", 8, 3, [], []⟩]).map
      (fun r => (r.completion_time,
        pyRound 1 (_calculate_metrics r.assignments [⟨"D", 1, 8, []⟩]).2)) =
      .ok ((1 : ℚ), (2 : ℚ)) ∧ (1 : ℚ) ≠ 2 := by
  exact ⟨by decide, by norm_num⟩

/-- C2 amended, witness: on the specification's Scenario A input (one worker,
one 40-hour task at 8 hours/day) the run succeeds and the reported fields
match the per-assignment maximum formula. -/
theorem completion_time_is_max_assignment_days_witness :
    (run_optimization 3000 10 [⟨"W", 50, 8, ["python"]⟩]
        [⟨"T", 40, 3, [], ["python"]⟩]).map
        (fun r => (r.completion_time, r.time_buffer)) =
      (run_optimization 3000 10 [⟨"W", 50, 8, ["python"]⟩]
        [⟨"T", 40, 3, [], ["python"]⟩]).map
        (fun r => (pyRound 1 (maxDaysOf [⟨"W", 50, 8, ["python"]⟩] r.assignments),
          pyRound 1 (10 - maxDaysOf [⟨"W", 50, 8, ["python"]⟩] r.assignments))) :=
  completion_time_is_max_assignment_days 3000 10 [⟨"W", 50, 8, ["python"]⟩]
    [⟨"T", 40, 3, [], ["python"]⟩] (by decide)

/-- C6 witness: one worker with 8 hours/day over 5 days (40 hours capacity)
and a 100-hour task; the run aborts with the infeasibility error naming the
task. -/
theorem infeasible_task_raises_error_witness :
    run_optimization 1000 5 [⟨"W", 50, 8, []⟩] [⟨"Big", 100, 3, [], []⟩] =
      .error (.infeasible "Big") :=
  infeasible_task_raises_error.2.2 1000 5 [⟨"W", 50, 8, []⟩]
    [⟨"Big", 100, 3, [], []⟩] ⟨"Big", 100, 3, [], []⟩ []
    (by decide) (by decide)

/-- C7 witness: the ledger facts instantiated for one worker with 8 hours per
day and deadline 10. -/
theorem capacity_ledger_invariant_witness :
    (∀ d ∈ [(⟨"W", 50, 8, ["python"]⟩ : Developer)],
      dgetD (dev_availability_init [⟨"W", 50, 8, ["python"]⟩] 10) d.name 0 =
        d.hours_per_day * 10) ∧
    LedgerInvariant [⟨"W", 50, 8, ["python"]⟩] 10
      (initOptState [⟨"W", 50, 8, ["python"]⟩] 10) ∧
    (∀ (tasks : List Project) (s s' : OptState),
      LedgerInvariant [⟨"W", 50, 8, ["python"]⟩] 10 s →
      goLoop [⟨"W", 50, 8, ["python"]⟩] tasks s = .ok s' →
      LedgerInvariant [⟨"W", 50, 8, ["python"]⟩] 10 s') :=
  capacity_ledger_invariant [⟨"W", 50, 8, ["python"]⟩] 10
    (by decide) (by decide) (by decide)

/-! ## C10: the budget does not influence assignment decisions -/

/-- C10: two runs of the greedy engine that differ only in the budget
produce identical assignment lists (every field of every assignment, and the
same error if any); the budget only enters the risk findings and the
budget-remaining field, so the returned plan's total cost can exceed the
budget, as the concrete run with budget 1 and total cost 2000 shows. -/
theorem budget_does_not_influence_assignments (b₁ b₂ deadline : ℚ)
    (developers : List Developer) (projects : List Project) :
    (run_optimization b₁ deadline developers projects).map OptResult.assignments =
      (run_optimization b₂ deadline developers projects).map OptResult.assignments ∧
    run_optimization 1 10 [⟨"w", 50, 8, []⟩] [⟨"t", 40, 3, [], []⟩] =
      .ok { assignments := [⟨"w", "t", 40, 2000, 100⟩],
            total_cost := 2000,
            budget_remaining := -1999,
            completion_time := 5,
            time_buffer := 5,
            risks := [⟨.budgetNearlyExhausted 200000, .high⟩] } ∧
    (2000 : ℚ) > 1 := by
  refine ⟨?_, by decide, by norm_num⟩
  cases hres : _resolve_dependencies projects with
  | error e =>
    rw [run_optimization_resolve_error b₁ deadline developers hres,
      run_optimization_resolve_error b₂ deadline developers hres]
  | ok ordered =>
    rw [run_optimization_resolve_ok b₁ deadline developers hres,
      run_optimization_resolve_ok b₂ deadline developers hres]
    cases goLoop developers ordered (initOptState developers deadline) with
    | error e => rfl
    | ok s => rfl

end ConcreteEvaluations

/-! ## C5: cycle detection

The development below verifies the depth-first traversal of
`_resolve_dependencies`: a dependency cycle among the input tasks always
aborts the run with the circular-dependency error, naming a task on a cycle.
-/

theorem keys_subset_allNames {g : List (String × List String)} {n : String}
    (h : n ∈ g.map Prod.fst) : n ∈ allNames g :=
  List.mem_append_left _ h

theorem deps_subset_allNames {g : List (String × List String)} {n d : String}
    (h : d ∈ depsOf g n) : d ∈ allNames g := by
  unfold depsOf dgetD at h
  cases hf : dfind? g n with
  | none => rw [hf] at h; cases h
  | some deps =>
    rw [hf] at h
    unfold dfind? at hf
    cases hfind : g.find? (fun kv => kv.1 == n) with
    | none => rw [hfind] at hf; cases hf
    | some kv =>
      rw [hfind] at hf
      injection hf with hf
      subst hf
      have hmem := List.mem_of_find?_eq_some hfind
      refine List.mem_append_right _ ?_
      clear hfind
      induction g with
      | nil => cases hmem
      | cons kv' g ih =>
        rcases List.mem_cons.mp hmem with he | he
        · subst he
          exact List.mem_append_left _ h
        · exact List.mem_append_right _ (ih he)

theorem edge_source_mem_keys {g : List (String × List String)} {u v : String}
    (h : Edge g u v) : u ∈ g.map Prod.fst := by
  obtain ⟨-, hv⟩ := h
  unfold depsOf dgetD at hv
  cases hf : dfind? g u with
  | none => rw [hf] at hv; cases hv
  | some deps =>
    unfold dfind? at hf
    cases hfind : g.find? (fun kv => kv.1 == u) with
    | none => rw [hfind] at hf; cases hf
    | some kv =>
      have h1 := List.find?_some hfind
      have h2 := List.mem_of_find?_eq_some hfind
      simp only [beq_iff_eq] at h1
      exact h1 ▸ List.mem_map_of_mem Prod.fst h2

theorem before_trans {l : List String} {a b c : String}
    (h1 : before l a b) (h2 : before l b c) : before l a c :=
  ⟨h1.1, h2.2.1, lt_trans h1.2.2 h2.2.2⟩

theorem before_irrefl (l : List String) (a : String) : ¬ before l a a :=
  fun h => lt_irrefl _ h.2.2

theorem before_append_right {l : List String} (l₂ : List String) {a b : String}
    (h : before l a b) : before (l ++ l₂) a b := by
  obtain ⟨ha, hb, hlt⟩ := h
  exact ⟨List.mem_append_left _ ha, List.mem_append_left _ hb,
    by rw [List.indexOf_append_of_mem ha, List.indexOf_append_of_mem hb]; exact hlt⟩

theorem before_append_new {l : List String} {a b : String}
    (ha : a ∈ l) (hb : b ∉ l) : before (l ++ [b]) a b := by
  refine ⟨List.mem_append_left _ ha,
    List.mem_append_right _ (List.mem_singleton.mpr rfl), ?_⟩
  rw [List.indexOf_append_of_mem ha, List.indexOf_append_of_not_mem hb]
  calc l.indexOf a < l.length := List.indexOf_lt_length.mpr ha
  _ ≤ l.length + [b].indexOf b := Nat.le_add_right _ _

theorem chain_reach_head {g : List (String × List String)} :
    ∀ (l : List String), List.Chain' (fun a b => Edge g b a) l →
      ∀ x ∈ l, ∀ (h : l ≠ []), Relation.ReflTransGen (Edge g) x (l.head h) := by
  intro l
  induction l with
  | nil => intro _ x hx; cases hx
  | cons a l ih =>
    intro hchain x hx hne
    rcases List.mem_cons.mp hx with he | he
    · subst he
      exact Relation.ReflTransGen.refl
    · have hlne : l ≠ [] := List.ne_nil_of_mem he
      rw [List.chain'_cons'] at hchain
      have hreach : Relation.ReflTransGen (Edge g) x (l.head hlne) :=
        ih hchain.2 x he hlne
      have hedge : Edge g (l.head hlne) a := by
        have := hchain.1 (l.head hlne) ?_
        · exact this
        · rw [List.head?_eq_head hlne]
          rfl
      exact Relation.ReflTransGen.tail hreach hedge

theorem cycle_of_temp_mem {g : List (String × List String)} {temp : List String}
    {n : String} (hchain : List.Chain' (fun a b => Edge g b a) temp)
    (hhead : ∀ c, temp.head? = some c → Edge g c n) (hmem : n ∈ temp) :
    Relation.TransGen (Edge g) n n := by
  have hne : temp ≠ [] := List.ne_nil_of_mem hmem
  have hreach : Relation.ReflTransGen (Edge g) n (temp.head hne) :=
    chain_reach_head temp hchain n hmem hne
  have hedge : Edge g (temp.head hne) n := hhead _ (List.head?_eq_head hne)
  exact Relation.TransGen.trans_right hreach (Relation.TransGen.single hedge)

theorem visitDeps_post {g : List (String × List String)} {ctx : String}
    {vf : String → DfsState → Option (Except ResolveError DfsState)}
    (hvf : ∀ n s res, vf n s = some res → VisitPost g n s res) :
    ∀ (ds : List String) (s : DfsState) (res : Except ResolveError DfsState),
      (∀ d ∈ ds, d ∈ depsOf g ctx) →
      visitDeps vf ds s = some res →
      (∀ s', res = .ok s' → DepsOk g ds s s') ∧
      (∀ e, res = .error e → DepsErr g ctx s e) := by
  intro ds
  induction ds with
  | nil =>
    intro s res hds h
    unfold visitDeps at h
    injection h with h
    subst h
    constructor
    · intro s' hs'
      injection hs' with hs'
      subst hs'
      exact ⟨rfl, fun x hx => hx, fun d hd => absurd hd (List.not_mem_nil d),
        ⟨[], (List.append_nil _).symm⟩, fun hi => hi⟩
    · intro e he
      cases he
  | cons d ds ih =>
    intro s res hds h
    unfold visitDeps at h
    by_cases hde : d = ""
    · rw [if_pos hde] at h
      obtain ⟨hok, herr⟩ := ih s res (fun d' hd' => hds d' (List.mem_cons_of_mem d hd')) h
      constructor
      · intro s' hs'
        obtain ⟨h1, h2, h3, h4, h5⟩ := hok s' hs'
        refine ⟨h1, h2, ?_, h4, h5⟩
        intro d' hd' hne
        rcases List.mem_cons.mp hd' with he | he
        · exact absurd (he.trans hde) hne
        · exact h3 d' he hne
      · exact herr
    · rw [if_neg hde] at h
      cases hv : vf d s with
      | none => rw [hv] at h; cases h
      | some r =>
        rw [hv] at h
        have hpost := hvf d s r hv
        cases r with
        | error e =>
          injection h with h
          subst h
          constructor
          · intro s' hs'; cases hs'
          · intro e' he'
            injection he' with he'
            subst he'
            obtain ⟨t, ht, htg⟩ := hpost.2 e rfl
            refine ⟨t, ht, ?_⟩
            intro hhead hchain hinv
            refine htg ⟨hchain, ?_⟩ hinv
            intro c hc
            rw [hhead] at hc
            injection hc with hc
            subst hc
            exact ⟨hde, hds d (List.mem_cons_self d ds)⟩
        | ok s₁ =>
          obtain ⟨ht1, hmono1, hdvis1, hext1, hinv1⟩ := hpost.1 s₁ rfl
          obtain ⟨hok, herr⟩ :=
            ih s₁ res (fun d' hd' => hds d' (List.mem_cons_of_mem d hd')) h
          constructor
          · intro s' hs'
            obtain ⟨h1, h2, h3, h4, h5⟩ := hok s' hs'
            refine ⟨h1.trans ht1, fun x hx => h2 x (hmono1 x hx), ?_, ?_, ?_⟩
            · intro d' hd' hne
              rcases List.mem_cons.mp hd' with he | he
              · exact h2 d' (he ▸ hdvis1)
              · exact h3 d' he hne
            · obtain ⟨e1, he1⟩ := hext1
              obtain ⟨e2, he2⟩ := h4
              exact ⟨e1 ++ e2, by rw [he2, he1, List.append_assoc]⟩
            · intro hi
              exact h5 (hinv1 hi)
          · intro e he
            obtain ⟨t, ht, htg⟩ := herr e he
            refine ⟨t, ht, ?_⟩
            intro hhead hchain hinv
            rw [ht1] at htg
            exact htg hhead hchain (hinv1 hinv)

theorem dfsInv_init (g : List (String × List String)) : DfsInv g ⟨[], [], []⟩ :=
  ⟨List.nodup_nil, fun _ => Iff.rfl, fun x hx => absurd hx (List.not_mem_nil x),
    List.nodup_nil, fun u _ _ hu => absurd hu (List.not_mem_nil u)⟩

theorem dfsInv_push_temp {g : List (String × List String)} {s : DfsState} {n : String}
    (hinv : DfsInv g s) (htemp : n ∉ s.temp) (hvis : n ∉ s.visited) :
    DfsInv g { s with temp := n :: s.temp } := by
  obtain ⟨hnd, hiff, hdisj, htnd, hedge⟩ := hinv
  refine ⟨hnd, hiff, ?_, ?_, hedge⟩
  · intro x hx
    rcases List.mem_cons.mp hx with he | he
    · subst he
      exact fun ho => hvis ((hiff x).mpr ho)
    · exact hdisj x he
  · exact List.nodup_cons.mpr ⟨htemp, htnd⟩

theorem visit_post (g : List (String × List String)) :
    ∀ (fuel : Nat) (n : String) (s : DfsState) (res : Except ResolveError DfsState),
      visit g fuel n s = some res → VisitPost g n s res := by
  intro fuel
  induction fuel with
  | zero => intro n s res h; cases h
  | succ fuel ih =>
    intro n s res h
    unfold visit at h
    by_cases htemp : n ∈ s.temp
    · rw [if_pos htemp] at h
      injection h with h
      subst h
      constructor
      · intro s' hs'; cases hs'
      · intro e he
        injection he with he
        subst he
        exact ⟨n, rfl, fun hpath _ => cycle_of_temp_mem hpath.1 hpath.2 htemp⟩
    · rw [if_neg htemp] at h
      by_cases hvis : n ∈ s.visited
      · rw [if_pos hvis] at h
        injection h with h
        subst h
        constructor
        · intro s' hs'
          injection hs' with hs'
          subst hs'
          exact ⟨rfl, fun x hx => hx, hvis, ⟨[], (List.append_nil _).symm⟩, fun hi => hi⟩
        · intro e he; cases he
      · rw [if_neg hvis] at h
        cases hvd : visitDeps (visit g fuel) (depsOf g n) { s with temp := n :: s.temp } with
        | none => rw [hvd] at h; cases h
        | some r =>
          rw [hvd] at h
          have hpost := visitDeps_post ih (depsOf g n) _ r (fun d hd => hd) hvd
          cases r with
          | error e =>
            injection h with h
            subst h
            constructor
            · intro s' hs'; cases hs'
            · intro e' he'
              injection he' with he'
              subst he'
              obtain ⟨t, ht, htg⟩ := hpost.2 e rfl
              refine ⟨t, ht, ?_⟩
              rintro ⟨hchain, hedge⟩ hinv
              refine htg rfl ?_ (dfsInv_push_temp hinv htemp hvis)
              rw [List.chain'_cons']
              exact ⟨fun b hb => hedge b hb, hchain⟩
          | ok s₂ =>
            injection h with h
            subst h
            obtain ⟨ht2, hmono2, hdvis2, hext2, hinv2⟩ := hpost.1 s₂ rfl
            constructor
            · intro s' hs'
              injection hs' with hs'
              subst hs'
              refine ⟨?_, ?_, List.mem_cons_self n _, ?_, ?_⟩
              · show s₂.temp.erase n = s.temp
                rw [ht2]
                exact List.erase_cons_head n s.temp
              · intro x hx
                exact List.mem_cons_of_mem n (hmono2 x hx)
              · obtain ⟨e2, he2⟩ := hext2
                refine ⟨e2 ++ [n], ?_⟩
                show s₂.ordered ++ [n] = s.ordered ++ (e2 ++ [n])
                rw [he2]
                exact (List.append_assoc _ _ _)
              · intro hinv
                have hinv1 := dfsInv_push_temp hinv htemp hvis
                obtain ⟨hnd2, hiff2, hdisj2, htnd2, hedge2⟩ := hinv2 hinv1
                have hntemp2 : n ∈ s₂.temp := ht2 ▸ List.mem_cons_self n s.temp
                have hnord2 : n ∉ s₂.ordered := hdisj2 n hntemp2
                refine ⟨?_, ?_, ?_, ?_, ?_⟩
                · show (s₂.ordered ++ [n]).Nodup
                  rw [List.nodup_append]
                  exact ⟨hnd2, List.nodup_singleton n,
                    fun a ha hb => hnord2 (List.mem_singleton.mp hb ▸ ha)⟩
                · intro x
                  show x ∈ n :: s₂.visited ↔ x ∈ s₂.ordered ++ [n]
                  constructor
                  · intro hx
                    rcases List.mem_cons.mp hx with he | he
                    · exact he ▸ List.mem_append_right _ (List.mem_singleton.mpr rfl)
                    · exact List.mem_append_left _ ((hiff2 x).mp he)
                  · intro hx
                    rcases List.mem_append.mp hx with he | he
                    · exact List.mem_cons_of_mem n ((hiff2 x).mpr he)
                    · exact List.mem_singleton.mp he ▸ List.mem_cons_self n _
                · intro x hx
                  show x ∉ s₂.ordered ++ [n]
                  have hx' : x ∈ s.temp := by
                    have : s₂.temp.erase n = s.temp := by
                      rw [ht2]; exact List.erase_cons_head n s.temp
                    exact this ▸ hx
                  have hx2 : x ∈ s₂.temp := ht2 ▸ List.mem_cons_of_mem n hx'
                  intro hmem
                  rcases List.mem_append.mp hmem with hm | hm
                  · exact hdisj2 x hx2 hm
                  · exact htemp (List.mem_singleton.mp hm ▸ hx')
                · show (s₂.temp.erase n).Nodup
                  rw [ht2, List.erase_cons_head]
                  exact hinv.2.2.2.1
                · intro u v huv hu
                  show before (s₂.ordered ++ [n]) v u
                  rcases List.mem_append.mp hu with hm | hm
                  · exact before_append_right [n] (hedge2 u v huv hm)
                  · have hun : u = n := List.mem_singleton.mp hm
                    subst hun
                    have hv2 : v ∈ s₂.visited := hdvis2 v huv.2 huv.1
                    exact before_append_new ((hiff2 v).mp hv2) hnord2
            · intro e he; cases he

theorem visitAll_post (g : List (String × List String)) (fuel : Nat) :
    ∀ (ns : List String) (s : DfsState) (res : Except ResolveError DfsState),
      visitAll g fuel ns s = some res →
      (∀ s', res = .ok s' →
        (∀ x ∈ s.visited, x ∈ s'.visited) ∧ (∀ x ∈ ns, x ∈ s'.visited) ∧
        s'.temp = s.temp ∧ (DfsInv g s → DfsInv g s')) ∧
      (∀ e, res = .error e → ∃ t, e = ResolveError.cycle t ∧
        (s.temp = [] → DfsInv g s → Relation.TransGen (Edge g) t t)) := by
  intro ns
  induction ns with
  | nil =>
    intro s res h
    unfold visitAll at h
    injection h with h
    subst h
    constructor
    · intro s' hs'
      injection hs' with hs'
      subst hs'
      exact ⟨fun x hx => hx, fun x hx => absurd hx (List.not_mem_nil x), rfl, fun hi => hi⟩
    · intro e he; cases he
  | cons m ns ih =>
    intro s res h
    unfold visitAll at h
    by_cases hm : m ∈ s.visited
    · rw [if_pos hm] at h
      obtain ⟨hok, herr⟩ := ih s res h
      constructor
      · intro s' hs'
        obtain ⟨h1, h2, h3, h4⟩ := hok s' hs'
        refine ⟨h1, ?_, h3, h4⟩
        intro x hx
        rcases List.mem_cons.mp hx with he | he
        · exact he ▸ h1 m hm
        · exact h2 x he
      · exact herr
    · rw [if_neg hm] at h
      cases hv : visit g fuel m s with
      | none => rw [hv] at h; cases h
      | some r =>
        rw [hv] at h
        have hpost := visit_post g fuel m s r hv
        cases r with
        | error e =>
          injection h with h
          subst h
          constructor
          · intro s' hs'; cases hs'
          · intro e' he'
            injection he' with he'
            subst he'
            obtain ⟨t, ht, htg⟩ := hpost.2 e rfl
            refine ⟨t, ht, ?_⟩
            intro hte hinv
            refine htg ⟨?_, ?_⟩ hinv
            · rw [hte]; exact List.chain'_nil
            · intro c hc
              rw [hte] at hc
              cases hc
        | ok s₁ =>
          obtain ⟨ht1, hmono1, hm1, hext1, hinv1⟩ := hpost.1 s₁ rfl
          obtain ⟨hok, herr⟩ := ih s₁ res h
          constructor
          · intro s' hs'
            obtain ⟨h1, h2, h3, h4⟩ := hok s' hs'
            refine ⟨fun x hx => h1 x (hmono1 x hx), ?_, h3.trans ht1, fun hi => h4 (hinv1 hi)⟩
            intro x hx
            rcases List.mem_cons.mp hx with he | he
            · exact he ▸ h1 m hm1
            · exact h2 x he
          · intro e he
            obtain ⟨t, ht, htg⟩ := herr e he
            refine ⟨t, ht, ?_⟩
            intro hte hinv
            exact htg (ht1.trans hte) (hinv1 hinv)

theorem visitDeps_fuel (g : List (String × List String)) (fuel : Nat)
    (hvf : ∀ (n : String) (s : DfsState), n ∈ allNames g →
      (∀ x ∈ s.temp, x ∈ allNames g) → s.temp.Nodup →
      (allNames g).toFinset.card - s.temp.length < fuel → visit g fuel n s ≠ none) :
    ∀ (ds : List String) (s : DfsState),
      (∀ d ∈ ds, d ∈ allNames g) → (∀ x ∈ s.temp, x ∈ allNames g) → s.temp.Nodup →
      (allNames g).toFinset.card - s.temp.length < fuel →
      visitDeps (visit g fuel) ds s ≠ none := by
  intro ds
  induction ds with
  | nil =>
    intro s _ _ _ _
    unfold visitDeps
    simp
  | cons d ds ih =>
    intro s hds htsub htnd hbound
    unfold visitDeps
    by_cases hde : d = ""
    · rw [if_pos hde]
      exact ih s (fun d' hd' => hds d' (List.mem_cons_of_mem d hd')) htsub htnd hbound
    · rw [if_neg hde]
      cases hv : visit g fuel d s with
      | none =>
        exact absurd hv (hvf d s (hds d (List.mem_cons_self d ds)) htsub htnd hbound)
      | some r =>
        cases r with
        | error e => simp
        | ok s₁ =>
          have ht1 : s₁.temp = s.temp := ((visit_post g fuel d s _ hv).1 s₁ rfl).1
          refine ih s₁ (fun d' hd' => hds d' (List.mem_cons_of_mem d hd')) ?_ ?_ ?_
          · rw [ht1]; exact htsub
          · rw [ht1]; exact htnd
          · rw [ht1]; exact hbound

theorem visit_fuel (g : List (String × List String)) :
    ∀ (fuel : Nat) (n : String) (s : DfsState),
      n ∈ allNames g → (∀ x ∈ s.temp, x ∈ allNames g) → s.temp.Nodup →
      (allNames g).toFinset.card - s.temp.length < fuel →
      visit g fuel n s ≠ none := by
  intro fuel
  induction fuel with
  | zero => intro n s _ _ _ hbound; omega
  | succ fuel ih =>
    intro n s hn htsub htnd hbound
    unfold visit
    by_cases htemp : n ∈ s.temp
    · rw [if_pos htemp]; simp
    · rw [if_neg htemp]
      by_cases hvis : n ∈ s.visited
      · rw [if_pos hvis]; simp
      · rw [if_neg hvis]
        have hcard : s.temp.length + 1 ≤ (allNames g).toFinset.card := by
          have h1 : (n :: s.temp).toFinset ⊆ (allNames g).toFinset := by
            intro x hx
            rw [List.mem_toFinset] at hx ⊢
            rcases List.mem_cons.mp hx with he | he
            · exact he ▸ hn
            · exact htsub x he
          have h2 : (n :: s.temp).toFinset.card = s.temp.length + 1 := by
            rw [List.toFinset_card_of_nodup (List.nodup_cons.mpr ⟨htemp, htnd⟩)]
            rfl
          calc s.temp.length + 1 = (n :: s.temp).toFinset.card := h2.symm
          _ ≤ (allNames g).toFinset.card := Finset.card_le_card h1
        have hdeps : visitDeps (visit g fuel) (depsOf g n)
            { s with temp := n :: s.temp } ≠ none := by
          refine visitDeps_fuel g fuel ih (depsOf g n) _
            (fun d hd => deps_subset_allNames hd) ?_ ?_ ?_
          · intro x hx
            rcases List.mem_cons.mp hx with he | he
            · exact he ▸ hn
            · exact htsub x he
          · exact List.nodup_cons.mpr ⟨htemp, htnd⟩
          · show (allNames g).toFinset.card - (n :: s.temp).length < fuel
            simp only [List.length_cons]
            omega
        cases hvd : visitDeps (visit g fuel) (depsOf g n)
            { s with temp := n :: s.temp } with
        | none => exact absurd hvd hdeps
        | some r =>
          cases r with
          | error e => simp
          | ok s₂ => simp

theorem visitAll_fuel (g : List (String × List String)) :
    ∀ (ns : List String) (s : DfsState),
      (∀ x ∈ ns, x ∈ g.map Prod.fst) → s.temp = [] →
      visitAll g ((allNames g).length + 1) ns s ≠ none := by
  intro ns
  induction ns with
  | nil =>
    intro s _ _
    unfold visitAll
    simp
  | cons m ns ih =>
    intro s hns hte
    unfold visitAll
    by_cases hm : m ∈ s.visited
    · rw [if_pos hm]
      exact ih s (fun x hx => hns x (List.mem_cons_of_mem m hx)) hte
    · rw [if_neg hm]
      have hv : visit g ((allNames g).length + 1) m s ≠ none := by
        refine visit_fuel g _ m s
          (keys_subset_allNames (hns m (List.mem_cons_self m ns))) ?_ ?_ ?_
        · rw [hte]; intro x hx; cases hx
        · rw [hte]; exact List.nodup_nil
        · rw [hte]
          simp only [List.length_nil, Nat.sub_zero]
          have := List.toFinset_card_le (allNames g)
          omega
      cases hvd : visit g ((allNames g).length + 1) m s with
      | none => exact absurd hvd hv
      | some r =>
        cases r with
        | error e => simp
        | ok s₁ =>
          have ht1 : s₁.temp = s.temp :=
            ((visit_post g _ m s _ hvd).1 s₁ rfl).1
          exact ih s₁ (fun x hx => hns x (List.mem_cons_of_mem m hx)) (ht1.trans hte)

/-- C5: for every set of tasks whose dependency graph contains a cycle (a
task that lists itself as a dependency being a cycle of length one),
`_resolve_dependencies` raises the circular-dependency error naming a task
that lies on a dependency cycle, and no execution order is returned. -/
theorem cyclic_dependencies_raise_cycle_error (projects : List Project)
    (hcyc : ∃ v, Relation.TransGen (Edge (buildGraph projects)) v v) :
    ∃ t, _resolve_dependencies projects = .error (.cycle t) ∧
      Relation.TransGen (Edge (buildGraph projects)) t t := by
  obtain ⟨v, hv⟩ := hcyc
  cases hva : visitAll (buildGraph projects) ((allNames (buildGraph projects)).length + 1)
      ((buildGraph projects).map Prod.fst) ⟨[], [], []⟩ with
  | none =>
    exact absurd hva (visitAll_fuel (buildGraph projects) _ _ (fun x hx => hx) rfl)
  | some r =>
    cases r with
    | error e =>
      obtain ⟨t, ht, htg⟩ := (visitAll_post _ _ _ _ _ hva).2 e rfl
      subst ht
      refine ⟨t, ?_, htg rfl (dfsInv_init _)⟩
      simp only [_resolve_dependencies]
      rw [hva]
    | ok s =>
      exfalso
      obtain ⟨-, hkeys, -, hinv⟩ := (visitAll_post _ _ _ _ _ hva).1 s rfl
      obtain ⟨hnd, hiff, hdisj, htnd, hedge⟩ := hinv (dfsInv_init _)
      have htg_before : ∀ a b, Relation.TransGen (Edge (buildGraph projects)) a b →
          before s.ordered b a := by
        intro a b htg
        induction htg with
        | single hab =>
          exact hedge _ _ hab ((hiff _).mp (hkeys _ (edge_source_mem_keys hab)))
        | tail hab hbc ihab =>
          exact before_trans
            (hedge _ _ hbc ((hiff _).mp (hkeys _ (edge_source_mem_keys hbc)))) ihab
      exact before_irrefl s.ordered v (htg_before v v hv)

/-- C5 witness: a task `S` that lists itself as a dependency is a cycle of
length one; the run aborts with the circular-dependency error (naming `S`,
the only task). -/
theorem cyclic_dependencies_raise_cycle_error_witness :
    ∃ t, _resolve_dependencies [⟨"S", 5, 3, ["S"], []⟩] = .error (.cycle t) ∧
      Relation.TransGen (Edge (buildGraph [⟨"S", 5, 3, ["S"], []⟩])) t t :=
  cyclic_dependencies_raise_cycle_error [⟨"S", 5, 3, ["S"], []⟩]
    ⟨"S", Relation.TransGen.single ⟨by decide, by decide⟩⟩

/-! ## C9: the combinatorial path with the solving capability unavailable -/

theorem lookupAllProjects_length {m : List (String × Project)} :
    ∀ {ns : List String} {l : List Project},
      lookupAllProjects m ns = .ok l → l.length = ns.length := by
  intro ns
  induction ns with
  | nil =>
    intro l h
    injection h with h
    subst h
    rfl
  | cons n ns ih =>
    intro l h
    unfold lookupAllProjects at h
    cases hf : dfind? m n with
    | none => rw [hf] at h; cases h
    | some p =>
      rw [hf] at h
      cases hlk : lookupAllProjects m ns with
      | error e => rw [hlk] at h; cases h
      | ok l₂ =>
        rw [hlk] at h
        injection h with h
        subst h
        simp [ih hlk]

theorem insertPrio_length (x : Project) :
    ∀ (l : List Project), (insertPrio x l).length = l.length + 1 := by
  intro l
  induction l with
  | nil => rfl
  | cons y ys ih =>
    unfold insertPrio
    by_cases hc : priorityKey x ≤ priorityKey y
    · rw [if_pos hc]; rfl
    · rw [if_neg hc]
      simp [ih]

theorem sortPrio_length (l : List Project) : (sortPrio l).length = l.length := by
  induction l with
  | nil => rfl
  | cons x xs ih =>
    show (insertPrio x (sortPrio xs)).length = xs.length + 1
    rw [insertPrio_length, ih]

theorem foldl_dinsert_length_mono {α β : Type} (kf : β → String) (vf : β → α) :
    ∀ (l : List β) (d₀ : List (String × α)),
      d₀.length ≤ (l.foldl (fun d x => dinsert d (kf x) (vf x)) d₀).length := by
  intro l
  induction l with
  | nil => intro d₀; exact le_refl _
  | cons x l ih =>
    intro d₀
    refine le_trans ?_ (ih (dinsert d₀ (kf x) (vf x)))
    unfold dinsert
    split_ifs
    · rw [List.length_map]
    · rw [List.length_append]
      exact Nat.le_add_right _ _

theorem buildGraph_ne_nil {ps : List Project} (h : ps ≠ []) : buildGraph ps ≠ [] := by
  cases ps with
  | nil => exact absurd rfl h
  | cons p rest =>
    have h1 : (dinsert ([] : List (String × List String)) p.name p.dependencies).length ≤
        (buildGraph (p :: rest)).length :=
      foldl_dinsert_length_mono (fun q : Project => q.name)
        (fun q : Project => q.dependencies) rest _
    have h2 : (dinsert ([] : List (String × List String)) p.name p.dependencies).length = 1 :=
      rfl
    intro hnil
    rw [hnil] at h1
    rw [h2] at h1
    cases h1

theorem resolve_ok_ne_nil {ps : List Project} {l : List Project}
    (h : _resolve_dependencies ps = .ok l) (hps : ps ≠ []) : l ≠ [] := by
  simp only [_resolve_dependencies] at h
  cases hva : visitAll (buildGraph ps) ((allNames (buildGraph ps)).length + 1)
      ((buildGraph ps).map Prod.fst) ⟨[], [], []⟩ with
  | none => rw [hva] at h; cases h
  | some r =>
    rw [hva] at h
    cases r with
    | error e => cases h
    | ok s =>
      dsimp only at h
      cases hlk : lookupAllProjects (projectMap ps) s.ordered with
      | error e => rw [hlk] at h; cases h
      | ok l' =>
        rw [hlk] at h
        injection h with h
        subst h
        obtain ⟨-, hkeys, -, hinv⟩ := (visitAll_post _ _ _ _ _ hva).1 s rfl
        obtain ⟨-, hiff, -, -, -⟩ := hinv (dfsInv_init _)
        have hke : (buildGraph ps).map Prod.fst ≠ [] := by
          intro hnil
          exact buildGraph_ne_nil hps (List.map_eq_nil_iff.mp hnil)
        obtain ⟨k, hk⟩ := List.exists_mem_of_ne_nil _ hke
        have hko : k ∈ s.ordered := (hiff k).mp (hkeys k hk)
        have h1 : s.ordered.length ≠ 0 := by
          intro h0
          rw [List.length_eq_zero] at h0
          rw [h0] at hko
          cases hko
        intro hnil
        have h2 := sortPrio_length l'
        have h3 := lookupAllProjects_length hlk
        rw [hnil] at h2
        simp only [List.length_nil] at h2
        omega

theorem quboVarNames_ne_nil {developers : List Developer} {projects : List Project}
    (hd : developers ≠ []) (hp : projects ≠ []) :
    quboVarNames developers projects ≠ [] := by
  cases developers with
  | nil => exact absurd rfl hd
  | cons d devs =>
    cases projects with
    | nil => exact absurd rfl hp
    | cons p ps =>
      have hm : ("x_" ++ toString 0 ++ "_" ++ toString 0) ∈
          quboVarNames (d :: devs) (p :: ps) := by
        unfold quboVarNames
        refine List.mem_flatMap.mpr ⟨0, ?_, ?_⟩
        · exact List.mem_range.mpr (Nat.succ_pos _)
        · exact List.mem_map.mpr ⟨0, List.mem_range.mpr (Nat.succ_pos _), rfl⟩
      exact List.ne_nil_of_mem hm

/-- C9 amended: whenever there is at least one worker and at least one task
and the solving capability is unavailable (the stub fallbacks), requesting
the combinatorial strategy produces exactly what the greedy solver alone
produces on the same input — plan, totals, risks, and the same error when
the greedy run fails — because `_process_results` crashes on the stub
program's variables and the handler falls back to `run_optimization`; the
result carries no `quantum_powered` flag (modelled `none`), so its
strategy indication does not report the combinatorial path. -/
theorem optimize_unavailable_equals_greedy (budget deadline : ℚ)
    (developers : List Developer) (projects : List Project)
    (hdev : developers ≠ []) (hps : projects ≠ []) :
    QuantumWorkflowOptimizer.optimize true budget deadline developers projects =
      (run_optimization budget deadline developers projects).map
        (fun r => { toOptResult := r, quantum_powered := none }) ∧
    (∀ r, QuantumWorkflowOptimizer.optimize true budget deadline developers projects =
      .ok r → r.quantum_powered = none) := by
  have hmain : QuantumWorkflowOptimizer.optimize true budget deadline developers projects =
      (run_optimization budget deadline developers projects).map
        (fun r => { toOptResult := r, quantum_powered := none }) := by
    simp only [QuantumWorkflowOptimizer.optimize]
    cases hres : _resolve_dependencies projects with
    | error e => rfl
    | ok ordered =>
      have hvars : quboVarNames developers ordered ≠ [] :=
        quboVarNames_ne_nil hdev (resolve_ok_ne_nil hres hps)
      dsimp only
      cases hqv : quboVarNames developers ordered with
      | nil => exact absurd hqv hvars
      | cons a as => rfl
  refine ⟨hmain, ?_⟩
  intro r h
  rw [hmain] at h
  cases hrun : run_optimization budget deadline developers projects with
  | error e => rw [hrun] at h; cases h
  | ok r₀ =>
    rw [hrun] at h
    injection h with h
    rw [← h]

section ConcreteEvaluationsTwo

attribute [local semireducible] Rat.add Rat.mul Rat.sub Rat.inv Rat.ofScientific

/-- C9 counterexample: with no workers and one task, the claim fails as
stated. The combinatorial path builds a quadratic program with no variables,
so the stub solver's empty success result survives `_process_results` and an
empty plan is returned with `quantum_powered = true` — while the greedy
solver alone fails with the infeasibility error on the same input, so the
two results are not identical and the strategy indication reports the
quantum path rather than greedy. -/
theorem optimize_unavailable_empty_workers_counterexample :
    QuantumWorkflowOptimizer.optimize true 100 10 [] [⟨"P", 8, 3, [], []⟩] =
      .ok ⟨⟨[], 0, 100, 0, 10, []⟩, some true⟩ ∧
    run_optimization 100 10 [] [⟨"P", 8, 3, [], []⟩] = .error (.infeasible "P") := by
  exact ⟨by decide, by decide⟩

/-- C9 amended, witness: on the specification's Scenario A input (one
worker, one task) the combinatorial path with the capability unavailable
returns exactly the greedy result, unflagged. -/
theorem optimize_unavailable_equals_greedy_witness :
    (QuantumWorkflowOptimizer.optimize true 3000 10 [⟨"W", 50, 8, ["python"]⟩]
        [⟨"T", 40, 3, [], ["python"]⟩] =
      (run_optimization 3000 10 [⟨"W", 50, 8, ["python"]⟩]
          [⟨"T", 40, 3, [], ["python"]⟩]).map
        (fun r => { toOptResult := r, quantum_powered := none })) ∧
    (∀ r, QuantumWorkflowOptimizer.optimize true 3000 10 [⟨"W", 50, 8, ["python"]⟩]
        [⟨"T", 40, 3, [], ["python"]⟩] = .ok r → r.quantum_powered = none) :=
  optimize_unavailable_equals_greedy 3000 10 [⟨"W", 50, 8, ["python"]⟩]
    [⟨"T", 40, 3, [], ["python"]⟩] (by decide) (by decide)

end ConcreteEvaluationsTwo

end AQWSE
